import Mathlib

/-!
# Verification of the streaming wavelet toy

A shallow embedding of the core of the streaming wavelet toy: the VC-2
lifting-filter tables (`vc2_wavelet_definitions.py`), the lifting arithmetic
and lazy memoized arrays (`logging_lazy_lists.py`), and the transform chain
builder (`streaming_wavelet_toy.py`), together with proofs of the behavioural
properties claimed for them.
-/

/-! ## Filter tables (`vc2_wavelet_definitions.py`) -/

/-- Identifiers for each kind of wavelet (`WaveletFilters` in the source,
an `IntEnum` with values 0..6). -/
inductive WaveletFilters where
  | deslauriers_dubuc_9_7
  | le_gall_5_3
  | deslauriers_dubuc_13_7
  | haar_no_shift
  | haar_with_shift
  | fidelity
  | daubechies_9_7
deriving DecidableEq, Repr

/-- Types of lifting filter (`LiftingFilterTypes` in the source, an `IntEnum`
with values 1..4). -/
inductive LiftingFilterTypes where
  | even_add_odd
  | even_subtract_odd
  | odd_add_even
  | odd_subtract_even
deriving DecidableEq, Repr

/-- The `update_even` property: whether this filter type rewrites
even-indexed elements. -/
def LiftingFilterTypes.update_even : LiftingFilterTypes → Bool
  | .even_add_odd => true
  | .even_subtract_odd => true
  | .odd_add_even => false
  | .odd_subtract_even => false

/-- The `add` property: whether this filter type adds (rather than
subtracts) the computed correction. -/
def LiftingFilterTypes.add : LiftingFilterTypes → Bool
  | .even_add_odd => true
  | .even_subtract_odd => false
  | .odd_add_even => true
  | .odd_subtract_even => false

/-- One lifting stage descriptor (`LiftingStage` named tuple in the source).
`S`, `L` are nonnegative integers in every table entry and are modelled as
`Nat`; the delay `D` may be negative and is an `Int`. -/
structure LiftingStage where
  lift_type : LiftingFilterTypes
  S : Nat
  L : Nat
  D : Int
  taps : List Int
deriving DecidableEq, Repr

instance : Inhabited LiftingStage := ⟨⟨.even_add_odd, 0, 0, 0, []⟩⟩

/-- `LiftingStage.with_inverted_lift_type`: the inverse of this lifting
operation.  The source maps the lift type through the dictionary
1 ↦ 2, 2 ↦ 1, 3 ↦ 4, 4 ↦ 3 and keeps all other fields. -/
def LiftingStage.with_inverted_lift_type (s : LiftingStage) : LiftingStage :=
  { s with
    lift_type :=
      match s.lift_type with
      | .even_add_odd => .even_subtract_odd
      | .even_subtract_odd => .even_add_odd
      | .odd_add_even => .odd_subtract_even
      | .odd_subtract_even => .odd_add_even }

/-- `SYNTHESIS_FILTERS`: VC-2's lifting wavelet (synthesis) filters, as
defined in the VC-2 spec.  The source stores these in a `Mapping` with one
entry per `WaveletFilters` member; that total mapping is modelled as a total
function. -/
def SYNTHESIS_FILTERS : WaveletFilters → List LiftingStage
  | .deslauriers_dubuc_9_7 =>
      [⟨.even_subtract_odd, 2, 2, 0, [1, 1]⟩,
       ⟨.odd_add_even, 4, 4, -1, [-1, 9, 9, -1]⟩]
  | .le_gall_5_3 =>
      [⟨.even_subtract_odd, 2, 2, 0, [1, 1]⟩,
       ⟨.odd_add_even, 1, 2, 0, [1, 1]⟩]
  | .deslauriers_dubuc_13_7 =>
      [⟨.even_subtract_odd, 5, 4, -1, [-1, 9, 9, -1]⟩,
       ⟨.odd_add_even, 4, 4, -1, [-1, 9, 9, -1]⟩]
  | .haar_no_shift =>
      [⟨.even_subtract_odd, 1, 1, 1, [1]⟩,
       ⟨.odd_add_even, 0, 1, 0, [1]⟩]
  | .haar_with_shift =>
      [⟨.even_subtract_odd, 1, 1, 1, [1]⟩,
       ⟨.odd_add_even, 0, 1, 0, [1]⟩]
  | .fidelity =>
      [⟨.odd_add_even, 8, 8, -3, [-2, -10, -25, 81, 81, -25, 10, -2]⟩,
       ⟨.even_subtract_odd, 8, 8, -3, [-8, 21, -46, 161, 161, -46, 21, -8]⟩]
  | .daubechies_9_7 =>
      [⟨.even_subtract_odd, 12, 2, 0, [1817, 1817]⟩,
       ⟨.odd_subtract_even, 12, 2, 0, [3616, 3616]⟩,
       ⟨.even_add_odd, 12, 2, 0, [217, 217]⟩,
       ⟨.odd_add_even, 12, 2, 0, [6497, 6497]⟩]

/-- `ANALYSIS_FILTERS`: the equivalent lifting wavelet analysis filters,
derived in the source by the comprehension
`[stage.with_inverted_lift_type() for stage in reversed(stages)]`. -/
def ANALYSIS_FILTERS (w : WaveletFilters) : List LiftingStage :=
  ((SYNTHESIS_FILTERS w).reverse).map LiftingStage.with_inverted_lift_type

/-! ## Pure lifting arithmetic

`LiftedLLL.compute_value` reads only its source array, whose slots are
memoized, so the value of each slot is a pure function of the source
array's values.  `compute_value` below is that pure function, translated
directly from the body of `LiftedLLL.compute_value`; the operational model
further down is proved to return exactly these values. -/

/-- The two clamping reassignments of `LiftedLLL.compute_value`:
`pos = min(pos, len(source) - (1 if update_even else 2))` followed by
`pos = max(pos, 1 if update_even else 0)`, factored into one function. -/
def clampPos (update_even : Bool) (n : Nat) (pos : Int) : Int :=
  max (min pos ((n : Int) - (if update_even then 1 else 2)))
    (if update_even then 1 else 0)

/-- The accumulation loop `for i in range(D, L + D): ...` of
`LiftedLLL.compute_value`, with the loop variable written as `i = D + k`
for `k` running over `[0, L)` (so `taps[i - D]` is `taps[k]`). -/
def liftSumAux (lift : LiftingStage) (src : List Int) (index : Int) :
    List Nat → Int → Int
  | [], acc => acc
  | k :: ks, acc =>
      let i : Int := lift.D + k
      let pos : Int := clampPos lift.lift_type.update_even src.length (index + 2 * i - 1)
      liftSumAux lift src index ks (acc + lift.taps.getD k 0 * src.getD pos.toNat 0)

/-- Pure translation of `LiftedLLL.compute_value`: the value of slot
`index` of a lifted array as a function of the source array's values.
Python's arithmetic right shift `>> S` is floor division by `2 ^ S`
(`Int.fdiv`); `1 << (S - 1)` is `2 ^ (S - 1)`. -/
def compute_value (lift : LiftingStage) (src : List Int) (index : Nat) : Int :=
  let even := index % 2 == 0
  if lift.lift_type.update_even == even then
    let s0 := liftSumAux lift src (index : Int) (List.range lift.L) 0
    let s1 := if 0 < lift.S then s0 + 2 ^ (lift.S - 1) else s0
    let s2 := Int.fdiv s1 (2 ^ lift.S)
    if lift.lift_type.add then src.getD index 0 + s2 else src.getD index 0 - s2
  else
    src.getD index 0

/-- The whole lifted array produced by one lifting stage: a `LiftedLLL` has
the same length as its source and each slot holds `compute_value` of that
slot. -/
def liftedArray (lift : LiftingStage) (src : List Int) : List Int :=
  (List.range src.length).map (fun i => compute_value lift src i)

/-- Values of the array at the end of a chain of lifting stages applied in
order to an input array. -/
def applyStages (stages : List LiftingStage) (input : List Int) : List Int :=
  stages.foldl (fun acc s => liftedArray s acc) input

/-- The full stage list of the chain built by `construct_all_arrays`:
all analysis stages followed by all synthesis stages. -/
def chainStages (w : WaveletFilters) : List LiftingStage :=
  ANALYSIS_FILTERS w ++ SYNTHESIS_FILTERS w

/-- Values of the `Decoder Output` array: the input passed through every
analysis stage and then every synthesis stage. -/
def fullChainOutput (w : WaveletFilters) (input : List Int) : List Int :=
  applyStages (chainStages w) input

/-! ## Basic facts about stage inversion -/

theorem with_inverted_S (s : LiftingStage) : s.with_inverted_lift_type.S = s.S := rfl

theorem with_inverted_L (s : LiftingStage) : s.with_inverted_lift_type.L = s.L := rfl

theorem with_inverted_D (s : LiftingStage) : s.with_inverted_lift_type.D = s.D := rfl

theorem with_inverted_taps (s : LiftingStage) : s.with_inverted_lift_type.taps = s.taps := rfl

theorem with_inverted_update_even (s : LiftingStage) :
    s.with_inverted_lift_type.lift_type.update_even = s.lift_type.update_even := by
  obtain ⟨t, S, L, D, taps⟩ := s
  cases t <;> rfl

theorem with_inverted_add (s : LiftingStage) :
    s.with_inverted_lift_type.lift_type.add = !s.lift_type.add := by
  obtain ⟨t, S, L, D, taps⟩ := s
  cases t <;> rfl

theorem with_inverted_involutive (s : LiftingStage) :
    s.with_inverted_lift_type.with_inverted_lift_type = s := by
  obtain ⟨t, S, L, D, taps⟩ := s
  cases t <;> rfl

/-! ## Bounds and parity of clamped neighbour positions -/

theorem clampPos_nonneg (ue : Bool) (n : Nat) (pos : Int) : 0 ≤ clampPos ue n pos := by
  have h : (0 : Int) ≤ (if ue then (1 : Int) else 0) := by cases ue <;> norm_num
  exact le_trans h (le_max_right _ _)

theorem clampPos_lt (ue : Bool) (n : Nat) (h2 : 2 ≤ n) (pos : Int) :
    clampPos ue n pos < (n : Int) := by
  have hn : (2 : Int) ≤ (n : Int) := by exact_mod_cast h2
  have hmin : min pos ((n : Int) - (if ue then 1 else 2)) ≤
      (n : Int) - (if ue then 1 else 2) := min_le_right _ _
  have hhi : (n : Int) - (if ue then 1 else 2) < (n : Int) := by
    cases ue <;> norm_num
  have hlo : (if ue then (1 : Int) else 0) < (n : Int) := by
    cases ue <;> norm_num <;> omega
  exact max_lt (lt_of_le_of_lt hmin hhi) hlo

theorem clampPos_toNat_lt (ue : Bool) (n : Nat) (h2 : 2 ≤ n) (pos : Int) :
    (clampPos ue n pos).toNat < n := by
  have h1 := clampPos_lt ue n h2 pos
  omega

/-- When the array length is even, clamping preserves the parity of the
neighbour position: both clamp bounds have that same parity. -/
theorem clampPos_emod_two (ue : Bool) (n : Nat) (hn : n % 2 = 0) (pos : Int)
    (hpos : pos % 2 = (if ue then 1 else 0)) :
    clampPos ue n pos % 2 = (if ue then 1 else 0) := by
  have hn' : (n : Int) % 2 = 0 := by omega
  have hhi : ((n : Int) - (if ue then 1 else 2)) % 2 = (if ue then 1 else 0) := by
    cases ue <;> norm_num <;> omega
  have hlo : (if ue then (1 : Int) else 0) % 2 = (if ue then 1 else 0) := by
    cases ue <;> norm_num
  unfold clampPos
  rcases max_choice (min pos ((n : Int) - (if ue then 1 else 2)))
      (if ue then (1 : Int) else 0) with hM | hM
  · rw [hM]
    rcases min_choice pos ((n : Int) - (if ue then 1 else 2)) with hm | hm
    · rw [hm, hpos]
    · rw [hm, hhi]
  · rw [hM, hlo]

/-! ## Pointwise facts about one lifted array -/

theorem liftedArray_length (lift : LiftingStage) (src : List Int) :
    (liftedArray lift src).length = src.length := by
  simp [liftedArray]

theorem liftedArray_getD (lift : LiftingStage) (src : List Int) (i : Nat)
    (h : i < src.length) :
    (liftedArray lift src).getD i 0 = compute_value lift src i := by
  have h' : i < (liftedArray lift src).length := by rw [liftedArray_length]; exact h
  rw [List.getD_eq_getElem _ 0 h']
  simp [liftedArray]

/-- Slots whose parity the stage does not rewrite are copied unchanged. -/
theorem compute_value_passthrough (lift : LiftingStage) (src : List Int) (i : Nat)
    (h : lift.lift_type.update_even ≠ (i % 2 == 0)) :
    compute_value lift src i = src.getD i 0 := by
  simp only [compute_value]
  rw [if_neg (by simpa using h)]

/-- Applying the inverted stage to a lifted array computes exactly the same
weighted sum as the original stage did on its source: with an even-length
source every clamped neighbour position has the parity the stage does not
rewrite, so those slots passed through the first lift unchanged. -/
theorem liftSumAux_inverse (st : LiftingStage) (src : List Int)
    (hn : src.length % 2 = 0) (h2 : 2 ≤ src.length) (index : Int)
    (hidx : index % 2 = (if st.lift_type.update_even then 0 else 1)) :
    ∀ (ks : List Nat) (acc : Int),
      liftSumAux st.with_inverted_lift_type (liftedArray st src) index ks acc
        = liftSumAux st src index ks acc := by
  intro ks
  induction ks with
  | nil => intro acc; rfl
  | cons k ks ih =>
      intro acc
      simp only [liftSumAux, with_inverted_D, with_inverted_taps, with_inverted_update_even,
        liftedArray_length]
      have hppar : (index + 2 * (st.D + (k : Int)) - 1) % 2 =
          (if st.lift_type.update_even then 1 else 0) := by
        cases hue : st.lift_type.update_even <;> rw [hue] at hidx <;> simp at hidx ⊢ <;> omega
      have hclamp := clampPos_emod_two st.lift_type.update_even src.length hn
        (index + 2 * (st.D + (k : Int)) - 1) hppar
      have hcnn := clampPos_nonneg st.lift_type.update_even src.length
        (index + 2 * (st.D + (k : Int)) - 1)
      have hclt := clampPos_toNat_lt st.lift_type.update_even src.length h2
        (index + 2 * (st.D + (k : Int)) - 1)
      rw [liftedArray_getD st src _ hclt]
      rw [compute_value_passthrough st src _ ?_]
      · exact ih _
      · rcases Bool.eq_false_or_eq_true st.lift_type.update_even with hue | hue
        · rw [hue] at hclamp hcnn ⊢
          simp at hclamp
          have hx : (clampPos true src.length
              (index + 2 * (st.D + (k : Int)) - 1)).toNat % 2 = 1 := by omega
          rw [hx]
          simp
        · rw [hue] at hclamp hcnn ⊢
          simp at hclamp
          have hx : (clampPos false src.length
              (index + 2 * (st.D + (k : Int)) - 1)).toNat % 2 = 0 := by omega
          rw [hx]
          simp

/-- Core inversion fact: on an even-length source, applying a stage and then
its inverted stage restores every slot. -/
theorem compute_value_inverse (st : LiftingStage) (src : List Int)
    (hn : src.length % 2 = 0) (i : Nat) (hI : i < src.length) :
    compute_value st.with_inverted_lift_type (liftedArray st src) i = src.getD i 0 := by
  have h2 : 2 ≤ src.length := by omega
  by_cases hcond : st.lift_type.update_even = (i % 2 == 0)
  · have hbeq : (st.lift_type.update_even == (i % 2 == 0)) = true := beq_iff_eq.mpr hcond
    have hparity : (i : Int) % 2 = (if st.lift_type.update_even then 0 else 1) := by
      rcases Bool.eq_false_or_eq_true st.lift_type.update_even with hue | hue <;>
        rw [hue] at hcond ⊢ <;> simp at hcond ⊢ <;> omega
    simp only [compute_value, with_inverted_update_even, with_inverted_S, with_inverted_L,
      with_inverted_add, hbeq, if_true]
    rw [liftSumAux_inverse st src hn h2 (i : Int) hparity (List.range st.L) 0]
    rw [liftedArray_getD st src i hI]
    simp only [compute_value, hbeq, if_true]
    rcases Bool.eq_false_or_eq_true st.lift_type.add with hadd | hadd <;>
      rw [hadd] <;> simp
  · have hinv : st.with_inverted_lift_type.lift_type.update_even ≠ (i % 2 == 0) := by
      rw [with_inverted_update_even]; exact hcond
    rw [compute_value_passthrough _ _ _ hinv, liftedArray_getD st src i hI,
      compute_value_passthrough _ _ _ hcond]

theorem liftedArray_inverse (st : LiftingStage) (src : List Int)
    (hn : src.length % 2 = 0) :
    liftedArray st.with_inverted_lift_type (liftedArray st src) = src := by
  apply List.ext_getElem
  · rw [liftedArray_length, liftedArray_length]
  intro i h1 hsrc
  rw [← List.getD_eq_getElem _ 0 h1, ← List.getD_eq_getElem _ 0 hsrc]
  rw [liftedArray_getD _ _ i (by rw [liftedArray_length]; exact hsrc)]
  exact compute_value_inverse st src hn i hsrc

/-! ## Chains of stages -/

theorem applyStages_cons (s : LiftingStage) (rest : List LiftingStage) (input : List Int) :
    applyStages (s :: rest) input = applyStages rest (liftedArray s input) := rfl

theorem applyStages_append (a b : List LiftingStage) (input : List Int) :
    applyStages (a ++ b) input = applyStages b (applyStages a input) := by
  simp [applyStages, List.foldl_append]

theorem applyStages_length (stages : List LiftingStage) (input : List Int) :
    (applyStages stages input).length = input.length := by
  induction stages generalizing input with
  | nil => rfl
  | cons s rest ih => rw [applyStages_cons, ih, liftedArray_length]

/-- Running the reversed-and-inverted chain and then the original chain
returns the input, for even-length inputs. -/
theorem applyStages_roundtrip (stages : List LiftingStage) (input : List Int)
    (hn : input.length % 2 = 0) :
    applyStages stages
      (applyStages (stages.reverse.map LiftingStage.with_inverted_lift_type) input) = input := by
  induction stages with
  | nil => rfl
  | cons s rest ih =>
      rw [show (s :: rest).reverse.map LiftingStage.with_inverted_lift_type
          = rest.reverse.map LiftingStage.with_inverted_lift_type
            ++ [s.with_inverted_lift_type] by simp]
      rw [applyStages_append, applyStages_cons]
      have hX : (applyStages (rest.reverse.map LiftingStage.with_inverted_lift_type)
          input).length % 2 = 0 := by
        rw [applyStages_length]; exact hn
      have key := liftedArray_inverse s.with_inverted_lift_type
        (applyStages (rest.reverse.map LiftingStage.with_inverted_lift_type) input) hX
      rw [with_inverted_involutive] at key
      rw [show applyStages [s.with_inverted_lift_type]
          (applyStages (rest.reverse.map LiftingStage.with_inverted_lift_type) input)
          = liftedArray s.with_inverted_lift_type
            (applyStages (rest.reverse.map LiftingStage.with_inverted_lift_type) input)
          from rfl]
      rw [key]
      exact ih

/-- The analysis chain followed by the synthesis chain is the identity on
even-length integer sequences. -/
theorem fullChainOutput_eq_input (w : WaveletFilters) (input : List Int)
    (hn : input.length % 2 = 0) : fullChainOutput w input = input := by
  show applyStages (ANALYSIS_FILTERS w ++ SYNTHESIS_FILTERS w) input = input
  rw [applyStages_append]
  exact applyStages_roundtrip (SYNTHESIS_FILTERS w) input hn

/-! ## The specification's description of the lifting arithmetic (claim C2) -/

/-- Unfolding the accumulation loop into an explicit sum over `k ∈ [0, L)`. -/
theorem liftSumAux_eq_sum (lift : LiftingStage) (src : List Int) (index : Int) :
    ∀ (ks : List Nat) (acc : Int),
      liftSumAux lift src index ks acc
        = acc + (ks.map (fun k => lift.taps.getD k 0 *
            src.getD (clampPos lift.lift_type.update_even src.length
              (index + 2 * (lift.D + (k : Int)) - 1)).toNat 0)).sum := by
  intro ks
  induction ks with
  | nil => intro acc; simp [liftSumAux]
  | cons k ks ih =>
      intro acc
      simp only [liftSumAux, List.map_cons, List.sum_cons]
      rw [ih]
      ring

/-- The clamp operation as worded by the specification: restrict the
position to `[1, n-1]` for even-update kinds and to `[0, n-2]` for
odd-update kinds. -/
def specClamp (update_even : Bool) (n : Nat) (pos : Int) : Int :=
  if update_even then max 1 (min pos ((n : Int) - 1))
  else max 0 (min pos ((n : Int) - 2))

theorem specClamp_eq_clampPos (ue : Bool) (n : Nat) (pos : Int) :
    specClamp ue n pos = clampPos ue n pos := by
  cases ue <;> simp [specClamp, clampPos, max_comm]

/-- The lifted-slot value exactly as the specification describes it:
pass-through for the parity the kind does not rewrite; otherwise
`source[i] ± r` with `sum = Σ taps[k] * source[clamp(i + 2*(k+D) - 1)]`
and `r = sum` when `S = 0`, else `r = (sum + 2^(S-1)) >> S`
(arithmetic shift). -/
def specLiftedValue (lift : LiftingStage) (src : List Int) (i : Nat) : Int :=
  let n := src.length
  if lift.lift_type.update_even ≠ (i % 2 == 0) then src.getD i 0
  else
    let sum := ((List.range lift.L).map (fun k =>
      lift.taps.getD k 0 *
        src.getD (specClamp lift.lift_type.update_even n
          ((i : Int) + 2 * ((k : Int) + lift.D) - 1)).toNat 0)).sum
    let r := if lift.S = 0 then sum else Int.fdiv (sum + 2 ^ (lift.S - 1)) (2 ^ lift.S)
    if lift.lift_type.add then src.getD i 0 + r else src.getD i 0 - r

/-- C2: for a lifting stage and a source array of length `n ≥ 2`, the
computed slot value is exactly the value described by the specification:
pass-through when the slot's parity differs from the rewritten parity,
otherwise `source[i] ± r` where the weighted sum runs over the clamped
neighbour positions `clamp(i + 2*(k+D) - 1)` (clamped to `[1, n-1]`
resp. `[0, n-2]`) and `r` is the rounding-shifted sum (`r = sum` when
`S = 0`). -/
theorem C2_compute_value_formula (lift : LiftingStage) (src : List Int) (i : Nat)
    (h2 : 2 ≤ src.length) (hi : i < src.length) :
    compute_value lift src i = specLiftedValue lift src i := by
  have hsum : ((List.range lift.L).map (fun k =>
      lift.taps.getD k 0 *
        src.getD (specClamp lift.lift_type.update_even src.length
          ((i : Int) + 2 * ((k : Int) + lift.D) - 1)).toNat 0)).sum
      = ((List.range lift.L).map (fun k => lift.taps.getD k 0 *
          src.getD (clampPos lift.lift_type.update_even src.length
            ((i : Int) + 2 * (lift.D + (k : Int)) - 1)).toNat 0)).sum := by
    apply congrArg
    apply List.map_congr_left
    intro k _
    rw [specClamp_eq_clampPos, add_comm ((k : Int)) lift.D]
  by_cases hcond : lift.lift_type.update_even = (i % 2 == 0)
  · have hbeq : (lift.lift_type.update_even == (i % 2 == 0)) = true := beq_iff_eq.mpr hcond
    have hnot : ¬ (lift.lift_type.update_even ≠ (i % 2 == 0)) := fun hne => hne hcond
    simp only [specLiftedValue]
    rw [if_neg hnot]
    simp only [compute_value, hbeq, eq_self_iff_true, if_true]
    rw [liftSumAux_eq_sum lift src (i : Int) (List.range lift.L) 0, zero_add, hsum]
    rcases Nat.eq_zero_or_pos lift.S with hS | hS
    · rw [hS]
      simp [Int.fdiv_one]
    · rw [if_pos hS, if_neg (Nat.pos_iff_ne_zero.mp hS)]
  · have hbeq : (lift.lift_type.update_even == (i % 2 == 0)) = false := by
      simpa using hcond
    simp only [compute_value, specLiftedValue, hbeq, Bool.false_eq_true, if_false]
    rw [if_pos hcond]

/-- Witness for C2 at a concrete instance: the le_gall 5/3 odd-update
stage on the source `[1, 0, 3, 1]` at slot 1. -/
theorem C2_compute_value_formula_witness :
    compute_value ⟨.odd_add_even, 1, 2, 0, [1, 1]⟩ [1, 0, 3, 1] 1
      = specLiftedValue ⟨.odd_add_even, 1, 2, 0, [1, 1]⟩ [1, 0, 3, 1] 1 :=
  C2_compute_value_formula ⟨.odd_add_even, 1, 2, 0, [1, 1]⟩ [1, 0, 3, 1] 1
    (by decide) (by decide)

/-! ## Claims about the filter tables -/

/-- C5: for every wavelet identifier the analysis stage list is the
synthesis stage list reversed with each stage's kind inverted; every stage
keeps the same `S`, `L`, `D` and `taps`, stays in the same even/odd-update
class, and flips add/subtract.  Both lists are total functions of the
identifier, so they are obtainable for every known identifier. -/
theorem C5_analysis_from_synthesis (w : WaveletFilters) :
    (ANALYSIS_FILTERS w).length = (SYNTHESIS_FILTERS w).length ∧
    ∀ k, k < (SYNTHESIS_FILTERS w).length →
      (ANALYSIS_FILTERS w).getD k default
          = ((SYNTHESIS_FILTERS w).getD ((SYNTHESIS_FILTERS w).length - 1 - k)
              default).with_inverted_lift_type ∧
        ((ANALYSIS_FILTERS w).getD k default).S
          = ((SYNTHESIS_FILTERS w).getD ((SYNTHESIS_FILTERS w).length - 1 - k) default).S ∧
        ((ANALYSIS_FILTERS w).getD k default).L
          = ((SYNTHESIS_FILTERS w).getD ((SYNTHESIS_FILTERS w).length - 1 - k) default).L ∧
        ((ANALYSIS_FILTERS w).getD k default).D
          = ((SYNTHESIS_FILTERS w).getD ((SYNTHESIS_FILTERS w).length - 1 - k) default).D ∧
        ((ANALYSIS_FILTERS w).getD k default).taps
          = ((SYNTHESIS_FILTERS w).getD ((SYNTHESIS_FILTERS w).length - 1 - k) default).taps ∧
        ((ANALYSIS_FILTERS w).getD k default).lift_type.update_even
          = ((SYNTHESIS_FILTERS w).getD
              ((SYNTHESIS_FILTERS w).length - 1 - k) default).lift_type.update_even ∧
        ((ANALYSIS_FILTERS w).getD k default).lift_type.add
          = !((SYNTHESIS_FILTERS w).getD
              ((SYNTHESIS_FILTERS w).length - 1 - k) default).lift_type.add := by
  constructor
  · simp [ANALYSIS_FILTERS]
  intro k hk
  have hkA : k < (ANALYSIS_FILTERS w).length := by simpa [ANALYSIS_FILTERS] using hk
  have hkS : (SYNTHESIS_FILTERS w).length - 1 - k < (SYNTHESIS_FILTERS w).length := by omega
  have hA : (ANALYSIS_FILTERS w).getD k default
      = ((SYNTHESIS_FILTERS w).getD ((SYNTHESIS_FILTERS w).length - 1 - k)
          default).with_inverted_lift_type := by
    rw [List.getD_eq_getElem _ default hkA, List.getD_eq_getElem _ default hkS]
    have hkR : k < ((SYNTHESIS_FILTERS w).reverse).length := by
      simpa using hk
    simp only [ANALYSIS_FILTERS, List.getElem_map]
    congr 1
    rw [List.getElem_reverse]
  refine ⟨hA, ?_, ?_, ?_, ?_, ?_, ?_⟩ <;> rw [hA]
  · exact with_inverted_S _
  · exact with_inverted_L _
  · exact with_inverted_D _
  · exact with_inverted_taps _
  · exact with_inverted_update_even _
  · exact with_inverted_add _

/-- Witness for C5 at a concrete instance: the daubechies 9/7 table,
stage 1 of 4. -/
theorem C5_analysis_from_synthesis_witness :
    (ANALYSIS_FILTERS .daubechies_9_7).getD 1 default
      = ((SYNTHESIS_FILTERS .daubechies_9_7).getD 2 default).with_inverted_lift_type :=
  ((C5_analysis_from_synthesis .daubechies_9_7).2 1 (by decide)).1

/-- C6: stage inversion is an involution; a single inversion keeps
`S`, `L`, `D` and `taps` unchanged, keeps the even/odd-update class
(so even-add ↔ even-subtract and odd-add ↔ odd-subtract) and flips
add/subtract. -/
theorem C6_inversion_involution (s : LiftingStage) :
    s.with_inverted_lift_type.with_inverted_lift_type = s ∧
    s.with_inverted_lift_type.S = s.S ∧
    s.with_inverted_lift_type.L = s.L ∧
    s.with_inverted_lift_type.D = s.D ∧
    s.with_inverted_lift_type.taps = s.taps ∧
    s.with_inverted_lift_type.lift_type.update_even = s.lift_type.update_even ∧
    s.with_inverted_lift_type.lift_type.add = !s.lift_type.add :=
  ⟨with_inverted_involutive s, rfl, rfl, rfl, rfl,
    with_inverted_update_even s, with_inverted_add s⟩

/-- C10: the stored synthesis stage lists of `haar_no_shift` and
`haar_with_shift` are equal, hence so are the derived analysis lists and
the full transform chains. -/
theorem C10_haar_variants_equal :
    SYNTHESIS_FILTERS .haar_no_shift = SYNTHESIS_FILTERS .haar_with_shift ∧
    ANALYSIS_FILTERS .haar_no_shift = ANALYSIS_FILTERS .haar_with_shift ∧
    ∀ input : List Int,
      fullChainOutput .haar_no_shift input = fullChainOutput .haar_with_shift input :=
  ⟨rfl, rfl, fun _ => rfl⟩

/-! ## Operational model of the lazy memoized arrays

The chain built by `construct_all_arrays` is the input array followed by one
`LiftedLLL` per stage, each sourcing the previous array.  We identify each
array by its position (level) in the chain — in the source the arrays carry
distinct names, which play the same role.  An `EvalState` holds the mutable
state of the whole system: the slot lists of every array (`Unknown` slots
are `none`) and the `AccessLogger`'s state.

The logger is modelled as follows.  `time` is the `_time` counter, bumped by
every read of the `time` property (`tick`).  `stack` is `_call_stack`: one
`(level, index, start_time)` frame per active `new_context` scope.
`callLog` holds the completed call records; the source appends the record
when the call starts and fills in `end_time` on exit, so it lists the same
completed records in start order while this model appends them in
completion order.  Access records only tick the clock here (one tick when
`log_access` is entered, one in its `finally`); the records themselves and
the first/last-access tables are used only by the excluded rendering layer
and are not modelled. -/

/-- A completed call record: array level, index, start and end timestamps. -/
structure CallRec where
  level : Nat
  index : Int
  startTime : Nat
  endTime : Nat
deriving DecidableEq, Repr

/-- State of the arrays and the logger during evaluation. -/
structure EvalState where
  time : Nat
  stack : List (Nat × Int × Nat)
  callLog : List CallRec
  memos : List (List (Option Int))
deriving DecidableEq, Repr

/-- Reading the `AccessLogger.time` property: the clock advances by one and
the new value is returned. -/
def tick (st : EvalState) : Nat × EvalState :=
  (st.time + 1, { st with time := st.time + 1 })

/-- Exiting a `new_context` scope: pop the innermost frame (the source
asserts it is the frame that was pushed), read the clock for its end time,
and record the completed call. -/
def popStamp (st : EvalState) : EvalState :=
  match st.stack.getLast? with
  | none => st
  | some f =>
      let st1 : EvalState := { st with stack := st.stack.dropLast }
      { (tick st1).2 with
        callLog := (tick st1).2.callLog ++ [⟨f.1, f.2.1, f.2.2, (tick st1).1⟩] }

/-- Python list subscript semantics: an index in `[0, n)` is used directly,
an index in `[-n, 0)` counts from the end, anything else raises
`IndexError`. -/
def pyIdx (i : Int) (n : Nat) : Option Nat :=
  if 0 ≤ i ∧ i < (n : Int) then some i.toNat
  else if -(n : Int) ≤ i ∧ i < 0 then some ((n : Int) + i).toNat
  else none

/-- `xs[i]` on a Python list. -/
def pyGet {α : Type} (xs : List α) (i : Int) : Option α :=
  (pyIdx i xs.length).bind fun j => xs.get? j

/-- `xs[i] = v` on a Python list (never reached with an invalid index in
`__getitem__`, which reads the slot first). -/
def pySet {α : Type} (xs : List α) (i : Int) (v : α) : List α :=
  match pyIdx i xs.length with
  | some j => xs.set j v
  | none => xs

/-- The accumulation loop of `LiftedLLL.compute_value` in the operational
model: each neighbour read goes through the source array's `__getitem__`
(the `src` argument), threading the evaluation state; an `IndexError`
(`none`) aborts the loop. -/
def liftSumLoop (src : Int → EvalState → EvalState × Option Int) (srcLevel : Nat)
    (lift : LiftingStage) (index : Int) :
    List Nat → Int → EvalState → EvalState × Option Int
  | [], acc, st => (st, some acc)
  | k :: ks, acc, st =>
      let i : Int := lift.D + k
      let pos : Int := clampPos lift.lift_type.update_even
        (st.memos.getD srcLevel []).length (index + 2 * i - 1)
      match src pos st with
      | (st', none) => (st', none)
      | (st', some v) =>
          liftSumLoop src srcLevel lift index ks (acc + lift.taps.getD k 0 * v) st'

/-- `LiftedLLL.compute_value` in the operational model: `src` is the source
array's `__getitem__`, `srcLevel` its position in the chain (used to read
`len(self._source)` from the state). -/
def compute_value_op (src : Int → EvalState → EvalState × Option Int) (srcLevel : Nat)
    (lift : LiftingStage) (index : Int) (st : EvalState) : EvalState × Option Int :=
  let even := index % 2 == 0
  if lift.lift_type.update_even == even then
    match liftSumLoop src srcLevel lift index (List.range lift.L) 0 st with
    | (st', none) => (st', none)
    | (st', some s0) =>
        let s1 := if 0 < lift.S then s0 + 2 ^ (lift.S - 1) else s0
        let s2 := Int.fdiv s1 (2 ^ lift.S)
        match src index st' with
        | (st'', none) => (st'', none)
        | (st'', some v) =>
            (st'', some (if lift.lift_type.add then v + s2 else v - s2))
  else
    src index st

/-- `LoggingLazyList.__getitem__` with the value computation abstracted:
tick for the access record, read the slot (`IndexError` propagates as
`none`), return a resolved slot directly, otherwise compute inside a
`new_context` scope, store the value, and tick for the access record's
`finally`. -/
def getItemSkeleton (computeHere : Int → EvalState → EvalState × Option Int)
    (level : Nat) (index : Int) (st : EvalState) : EvalState × Option Int :=
  let st1 := (tick st).2
  match pyGet (st1.memos.getD level []) index with
  | none => ((tick st1).2, none)
  | some (some v) => ((tick st1).2, some v)
  | some none =>
      let st2 : EvalState := { (tick st1).2 with
        stack := (tick st1).2.stack ++ [(level, index, (tick st1).1)] }
      match computeHere index st2 with
      | (st3, none) => ((tick (popStamp st3)).2, none)
      | (st3, some value) =>
          let st4 := popStamp st3
          let st5 : EvalState := { st4 with
            memos := st4.memos.set level
              (pySet (st4.memos.getD level []) index (some value)) }
          ((tick st5).2, some value)

/-- `__getitem__` of the array at position `level` of the chain whose
lifted stages are `stages`.  Level 0 is the pre-populated input array,
whose `compute_value` raises `NotImplementedError` (modelled as `none`;
unreachable, since every slot of that array is resolved at construction).
Level `l + 1` is the `LiftedLLL` for `stages[l]`, sourcing level `l`. -/
def getItemOp (stages : List LiftingStage) : Nat → Int → EvalState → EvalState × Option Int
  | 0 => fun index st => getItemSkeleton (fun _ s => (s, none)) 0 index st
  | srcLevel + 1 => fun index st =>
      match stages.get? srcLevel with
      | some stage =>
          getItemSkeleton (compute_value_op (getItemOp stages srcLevel) srcLevel stage)
            (srcLevel + 1) index st
      | none => (st, none)

/-- The state right after `construct_all_arrays`: input slots resolved,
every lifted slot `Unknown`, fresh logger. -/
def initState (input : List Int) (stages : List LiftingStage) : EvalState :=
  { time := 0, stack := [], callLog := [],
    memos := input.map some :: stages.map (fun _ => List.replicate input.length none) }

/-- Run a sequence of reads `(level, index)`, keeping only the state. -/
def runCmds (stages : List LiftingStage) (cmds : List (Nat × Int)) (st : EvalState) :
    EvalState :=
  cmds.foldl (fun s c => (getItemOp stages c.1 c.2 s).1) st

/-- The slot of array `l` at (nonnegative) index `i`. -/
def slotAt (st : EvalState) (l i : Nat) : Option Int :=
  (st.memos.getD l []).getD i none

/-- The value array `l` of the chain denotes at index `i`: the input passed
through the first `l` stages. -/
def denotAt (input : List Int) (stages : List LiftingStage) (l i : Nat) : Int :=
  (applyStages (stages.take l) input).getD i 0

/-- Reads in `[0, n)` of every array, levels bounded by the chain length. -/
abbrev ValidCmds (stages : List LiftingStage) (n : Nat) (cmds : List (Nat × Int)) : Prop :=
  ∀ c ∈ cmds, c.1 ≤ stages.length ∧ 0 ≤ c.2 ∧ c.2 < (n : Int)

/-- The access pattern of `access_on_demand`: read every element of the
final (`Decoder Output`) array in order. -/
def demandCmds (stages : List LiftingStage) (n : Nat) : List (Nat × Int) :=
  (List.range n).map (fun (i : Nat) => (stages.length, (i : Int)))

/-- The access pattern of `access_like_block_filter`: read every array in
chain order, each in index order. -/
def blockCmds (stages : List LiftingStage) (n : Nat) : List (Nat × Int) :=
  (List.range (stages.length + 1)).flatMap
    (fun l => (List.range n).map (fun (i : Nat) => (l, (i : Int))))

/-! ## The chain builder (`streaming_wavelet_toy.py`) -/

/-- Structural description of one `LoggingLazyList`: either the
pre-populated base array or a `LiftedLLL` holding a reference to its source
array and its stage descriptor. -/
inductive LLLDesc where
  | base (name : String) (values : List Int)
  | lifted (name : String) (source : LLLDesc) (stage : LiftingStage)
deriving DecidableEq, Repr

/-- `len` of an array: a `LiftedLLL` is created with `len(source)` slots. -/
def LLLDesc.lengthOf : LLLDesc → Nat
  | .base _ values => values.length
  | .lifted _ source _ => source.lengthOf

/-- The slot list of an array right after construction: pre-populated
values for the base array, all `Unknown` for a lifted array. -/
def LLLDesc.initSlots : LLLDesc → List (Option Int)
  | .base _ values => values.map some
  | .lifted _ source _ => List.replicate source.lengthOf none

/-- The loop body of `construct_lifted_arrays`: `i` is the enumeration
index, `total` the stage count; each new array sources the previous one. -/
def construct_lifted_loop (pfx fin : String) (total : Nat) :
    Nat → LLLDesc → List LiftingStage → List LLLDesc
  | _, _, [] => []
  | i, prev, stage :: rest =>
      let name := if i ≠ total - 1 then pfx ++ toString (i + 1) else fin
      let array := LLLDesc.lifted name prev stage
      array :: construct_lifted_loop pfx fin total (i + 1) array rest

/-- `construct_lifted_arrays`: one lifted array per stage, chained onto
`input_lll`, intermediate arrays numbered from 1, the last named
`final_name`. -/
def construct_lifted_arrays (input_lll : LLLDesc) (lifting_stages : List LiftingStage)
    (pfx fin : String) : List LLLDesc :=
  construct_lifted_loop pfx fin lifting_stages.length 0 input_lll lifting_stages

/-- `construct_all_arrays`: the input array, the analysis chain, then the
synthesis chain sourced on the last array so far (`arrays[-1]`). -/
def construct_all_arrays (input_values : List Int) (w : WaveletFilters) : List LLLDesc :=
  let first := LLLDesc.base "Encoder Input" input_values
  let analysis := construct_lifted_arrays first (ANALYSIS_FILTERS w)
    "Encode Intermediate " "Encode Out/Decode In"
  let synthesis := construct_lifted_arrays (analysis.getLastD first) (SYNTHESIS_FILTERS w)
    "Decode Intermediate " "Decoder Output"
  first :: (analysis ++ synthesis)

/-! ## Elementary facts about the state operations -/

theorem getD_set_ne {α : Type} (xs : List α) (d : α) (j i : Nat) (v : α) (h : i ≠ j) :
    (xs.set j v).getD i d = xs.getD i d := by
  by_cases hi : i < xs.length
  · rw [List.getD_eq_getElem _ d (by simpa using hi), List.getD_eq_getElem _ d hi]
    exact List.getElem_set_ne (fun heq => h heq.symm) _
  · rw [List.getD_eq_default _ d (by simpa using Nat.le_of_not_lt hi),
      List.getD_eq_default _ d (Nat.le_of_not_lt hi)]

theorem getD_set_eq {α : Type} (xs : List α) (d : α) (j : Nat) (v : α) (h : j < xs.length) :
    (xs.set j v).getD j d = v := by
  rw [List.getD_eq_getElem _ d (by simpa using h)]
  exact List.getElem_set_self (by simpa using h)

theorem pyGet_slot (xs : List (Option Int)) (i : Int) (h0 : 0 ≤ i)
    (h1 : i < (xs.length : Int)) :
    pyGet xs i = some (xs.getD i.toNat none) := by
  have hj : i.toNat < xs.length := by omega
  unfold pyGet pyIdx
  rw [if_pos ⟨h0, h1⟩]
  show xs.get? i.toNat = some (xs.getD i.toNat none)
  rw [List.get?_eq_getElem?, List.getElem?_eq_getElem hj, List.getD_eq_getElem _ none hj]

theorem pyGet_oob {α : Type} (xs : List α) (i : Int)
    (h : (xs.length : Int) ≤ i ∨ i < -(xs.length : Int)) :
    pyGet xs i = none := by
  unfold pyGet pyIdx
  rw [if_neg (by omega), if_neg (by omega)]
  rfl

theorem pySet_inRange (xs : List (Option Int)) (i : Int) (v : Option Int) (h0 : 0 ≤ i)
    (h1 : i < (xs.length : Int)) :
    pySet xs i v = xs.set i.toNat v := by
  unfold pySet pyIdx
  rw [if_pos ⟨h0, h1⟩]

theorem popStamp_push (st : EvalState) (f : Nat × Int × Nat) (s : List (Nat × Int × Nat))
    (h : st.stack = s ++ [f]) :
    popStamp st = { st with
      time := st.time + 1,
      stack := s,
      callLog := st.callLog ++ [⟨f.1, f.2.1, f.2.2, st.time + 1⟩] } := by
  unfold popStamp
  rw [h, List.getLast?_concat, List.dropLast_concat]
  rfl

theorem getItemSkeleton_indexError (ch : Int → EvalState → EvalState × Option Int)
    (level : Nat) (index : Int) (st : EvalState)
    (h : pyGet (st.memos.getD level []) index = none) :
    getItemSkeleton ch level index st = ({ st with time := st.time + 1 + 1 }, none) := by
  unfold getItemSkeleton
  simp only [tick]
  rw [h]

theorem getItemSkeleton_hit (ch : Int → EvalState → EvalState × Option Int)
    (level : Nat) (index : Int) (st : EvalState) (v : Int)
    (h : pyGet (st.memos.getD level []) index = some (some v)) :
    getItemSkeleton ch level index st = ({ st with time := st.time + 1 + 1 }, some v) := by
  unfold getItemSkeleton
  simp only [tick]
  rw [h]

theorem getItemSkeleton_miss (ch : Int → EvalState → EvalState × Option Int)
    (level : Nat) (index : Int) (st : EvalState)
    (h : pyGet (st.memos.getD level []) index = some none) :
    getItemSkeleton ch level index st =
      match ch index
          ({ st with
             time := st.time + 1 + 1,
             stack := st.stack ++ [(level, index, st.time + 1 + 1)] }) with
      | (st3, none) => ((tick (popStamp st3)).2, none)
      | (st3, some value) =>
          ((tick ({ popStamp st3 with
              memos := (popStamp st3).memos.set level
                (pySet ((popStamp st3).memos.getD level []) index (some value)) })).2,
            some value) := by
  unfold getItemSkeleton
  simp only [tick]
  rw [h]

/-! ## The evaluation invariant and the step relation -/

/-- The invariant every reachable state satisfies: memo shape matches the
chain, resolved slots hold exactly the value the chain denotes, active
frames were pushed at past clock values, completed call records are
well-timed, distinct, and point at resolved slots. -/
structure Good (input : List Int) (stages : List LiftingStage) (st : EvalState) : Prop where
  memoCount : st.memos.length = stages.length + 1
  baseMemo : st.memos.getD 0 [] = input.map some
  memoLen : ∀ l, l ≤ stages.length → (st.memos.getD l []).length = input.length
  resolvedVal : ∀ l i v, slotAt st l i = some v → v = denotAt input stages l i
  stackTimes : ∀ f ∈ st.stack, f.2.2 ≤ st.time
  logTimes : ∀ r ∈ st.callLog, r.startTime < r.endTime
  logKeys : (st.callLog.map (fun r => (r.level, r.index))).Nodup
  callResolved : ∀ r ∈ st.callLog, 0 ≤ r.index ∧ slotAt st r.level r.index.toNat ≠ none

/-- How one evaluation step (of an array at level ≤ `bound`) may change the
state: the frame stack is restored, time moves forward, resolved slots are
preserved, memos above `bound` are untouched, and only call records for
levels ≤ `bound` are appended. -/
structure Reaches (bound : Nat) (st st' : EvalState) : Prop where
  stackEq : st'.stack = st.stack
  timeLe : st.time ≤ st'.time
  mono : ∀ l i v, slotAt st l i = some v → slotAt st' l i = some v
  hiEq : ∀ l, bound < l → st'.memos.getD l [] = st.memos.getD l []
  logExt : ∃ added, st'.callLog = st.callLog ++ added ∧ ∀ r ∈ added, r.level ≤ bound

theorem reaches_refl (bound : Nat) (st : EvalState) : Reaches bound st st :=
  ⟨rfl, le_refl _, fun _ _ _ h => h, fun _ _ => rfl, ⟨[], by simp, by simp⟩⟩

theorem reaches_trans {bound : Nat} {st1 st2 st3 : EvalState}
    (a : Reaches bound st1 st2) (b : Reaches bound st2 st3) : Reaches bound st1 st3 := by
  refine ⟨b.stackEq.trans a.stackEq, le_trans a.timeLe b.timeLe,
    fun l i v h => b.mono l i v (a.mono l i v h),
    fun l hl => (b.hiEq l hl).trans (a.hiEq l hl), ?_⟩
  obtain ⟨d1, h1, h1'⟩ := a.logExt
  obtain ⟨d2, h2, h2'⟩ := b.logExt
  refine ⟨d1 ++ d2, by rw [h2, h1, List.append_assoc], ?_⟩
  intro r hr
  rcases List.mem_append.mp hr with hr | hr
  · exact h1' r hr
  · exact h2' r hr

theorem reaches_mono_bound {bound bound' : Nat} {st st' : EvalState} (h : bound ≤ bound')
    (a : Reaches bound st st') : Reaches bound' st st' := by
  refine ⟨a.stackEq, a.timeLe, a.mono, fun l hl => a.hiEq l (lt_of_le_of_lt h hl), ?_⟩
  obtain ⟨d, hd, hd'⟩ := a.logExt
  exact ⟨d, hd, fun r hr => le_trans (hd' r hr) h⟩

/-- Bumping only the clock preserves the invariant. -/
theorem good_time_bump {input : List Int} {stages : List LiftingStage} {st : EvalState}
    (hG : Good input stages st) (t : Nat) (h : st.time ≤ t) :
    Good input stages { st with time := t } := by
  refine ⟨hG.memoCount, hG.baseMemo, hG.memoLen, ?_, ?_, hG.logTimes, hG.logKeys, ?_⟩
  · intro l i v hv
    exact hG.resolvedVal l i v hv
  · intro f hf
    exact le_trans (hG.stackTimes f hf) h
  · intro r hr
    exact hG.callResolved r hr

theorem reaches_time_bump (bound : Nat) (st : EvalState) (t : Nat) (h : st.time ≤ t) :
    Reaches bound st { st with time := t } :=
  ⟨rfl, h, fun _ _ _ hv => hv, fun _ _ => rfl, ⟨[], by simp, by simp⟩⟩

/-- Parity of an index seen as `int` and as a list position agree. -/
theorem int_nat_even (index : Int) (h0 : 0 ≤ index) :
    ((index % 2 == 0) : Bool) = ((index.toNat % 2 == 0) : Bool) := by
  by_cases hp : index % 2 = 0
  · have hq : index.toNat % 2 = 0 := by omega
    rw [hp, hq]
    decide
  · have hp1 : index % 2 = 1 := by omega
    have hq : index.toNat % 2 = 1 := by omega
    rw [hp1, hq]
    decide

/-- Unfolding the chain denotation one level. -/
theorem denotAt_succ (input : List Int) (stages : List LiftingStage) (l : Nat)
    (stage : LiftingStage) (hst : stages.get? l = some stage) (i : Nat)
    (hi : i < input.length) :
    denotAt input stages (l + 1) i
      = compute_value stage (applyStages (stages.take l) input) i := by
  unfold denotAt
  rw [List.take_succ, List.get?_eq_getElem? stages l] at *
  rw [hst]
  show (applyStages (stages.take l ++ [stage]) input).getD i 0 = _
  rw [applyStages_append]
  exact liftedArray_getD stage _ i (by rw [applyStages_length]; exact hi)

/-! ## Operational reads return the denotational values -/

theorem liftSumAux_cons (stage : LiftingStage) (src : List Int) (index : Int)
    (k : Nat) (ks : List Nat) (acc : Int) :
    liftSumAux stage src index (k :: ks) acc
      = liftSumAux stage src index ks (acc + stage.taps.getD k 0 *
          src.getD (clampPos stage.lift_type.update_even src.length
            (index + 2 * (stage.D + (k : Int)) - 1)).toNat 0) := rfl

theorem liftSumLoop_cons_some (R : Int → EvalState → EvalState × Option Int)
    (l : Nat) (stage : LiftingStage) (index : Int) (k : Nat) (ks : List Nat)
    (acc : Int) (st s' : EvalState) (v : Int)
    (hR : R (clampPos stage.lift_type.update_even (st.memos.getD l []).length
        (index + 2 * (stage.D + (k : Int)) - 1)) st = (s', some v)) :
    liftSumLoop R l stage index (k :: ks) acc st
      = liftSumLoop R l stage index ks (acc + stage.taps.getD k 0 * v) s' := by
  simp only [liftSumLoop]
  rw [hR]

/-- Running the neighbour-sum loop at level `l + 1` computes exactly the
pure `liftSumAux` over the denoted source array, given that every read of
the level-`l` array returns its denoted value. -/
theorem liftSumLoop_ok (input : List Int) (stages : List LiftingStage)
    (h2 : 2 ≤ input.length) (l : Nat) (hl : l ≤ stages.length)
    (R : Int → EvalState → EvalState × Option Int)
    (hread : ∀ (p : Int) (s : EvalState), Good input stages s → 0 ≤ p →
      p < (input.length : Int) →
      ∃ s', R p s = (s', some (denotAt input stages l p.toNat)) ∧
        Good input stages s' ∧ Reaches l s s' ∧ s.time < s'.time)
    (stage : LiftingStage) (index : Int) :
    ∀ (ks : List Nat) (acc : Int) (st : EvalState), Good input stages st →
      ∃ st', liftSumLoop R l stage index ks acc st
          = (st', some (liftSumAux stage (applyStages (stages.take l) input) index ks acc)) ∧
        Good input stages st' ∧ Reaches l st st' := by
  intro ks
  induction ks with
  | nil =>
      intro acc st hG
      exact ⟨st, rfl, hG, reaches_refl l st⟩
  | cons k ks ih =>
      intro acc st hG
      have hlen : (st.memos.getD l []).length = input.length := hG.memoLen l hl
      have hnn := clampPos_nonneg stage.lift_type.update_even input.length
        (index + 2 * (stage.D + (k : Int)) - 1)
      have hlt := clampPos_lt stage.lift_type.update_even input.length h2
        (index + 2 * (stage.D + (k : Int)) - 1)
      obtain ⟨s', hR, hG', hReach, _⟩ := hread
        (clampPos stage.lift_type.update_even input.length
          (index + 2 * (stage.D + (k : Int)) - 1)) st hG hnn hlt
      have hR' : R (clampPos stage.lift_type.update_even (st.memos.getD l []).length
          (index + 2 * (stage.D + (k : Int)) - 1)) st
          = (s', some (denotAt input stages l
              (clampPos stage.lift_type.update_even input.length
                (index + 2 * (stage.D + (k : Int)) - 1)).toNat)) := by
        rw [hlen]; exact hR
      rw [liftSumLoop_cons_some R l stage index k ks acc st s' _ hR']
      rw [liftSumAux_cons, applyStages_length]
      obtain ⟨st', hloop, hG'', hReach2⟩ := ih
        (acc + stage.taps.getD k 0 *
          denotAt input stages l
            (clampPos stage.lift_type.update_even input.length
              (index + 2 * (stage.D + (k : Int)) - 1)).toNat) s' hG'
      refine ⟨st', ?_, hG'', reaches_trans hReach hReach2⟩
      exact hloop

theorem compute_value_op_pass (R : Int → EvalState → EvalState × Option Int)
    (l : Nat) (stage : LiftingStage) (index : Int) (st : EvalState)
    (hcond : (stage.lift_type.update_even == (index % 2 == 0)) = false) :
    compute_value_op R l stage index st = R index st := by
  simp only [compute_value_op, hcond, Bool.false_eq_true, if_false]

theorem compute_value_op_updated (R : Int → EvalState → EvalState × Option Int)
    (l : Nat) (stage : LiftingStage) (index : Int) (st s1 s2 : EvalState)
    (v1 v2 : Int)
    (hcond : (stage.lift_type.update_even == (index % 2 == 0)) = true)
    (hloop : liftSumLoop R l stage index (List.range stage.L) 0 st = (s1, some v1))
    (hfinal : R index s1 = (s2, some v2)) :
    compute_value_op R l stage index st
      = (s2, some (if stage.lift_type.add then
          v2 + Int.fdiv (if 0 < stage.S then v1 + 2 ^ (stage.S - 1) else v1) (2 ^ stage.S)
        else
          v2 - Int.fdiv (if 0 < stage.S then v1 + 2 ^ (stage.S - 1) else v1)
            (2 ^ stage.S))) := by
  simp only [compute_value_op, hcond, eq_self_iff_true, if_true, hloop, hfinal]

/-- The operational `compute_value` at level `l + 1` returns exactly the
pure `compute_value` over the denoted source, preserving the invariant. -/
theorem compute_value_op_ok (input : List Int) (stages : List LiftingStage)
    (h2 : 2 ≤ input.length) (l : Nat) (hl : l ≤ stages.length)
    (R : Int → EvalState → EvalState × Option Int)
    (hread : ∀ (p : Int) (s : EvalState), Good input stages s → 0 ≤ p →
      p < (input.length : Int) →
      ∃ s', R p s = (s', some (denotAt input stages l p.toNat)) ∧
        Good input stages s' ∧ Reaches l s s' ∧ s.time < s'.time)
    (stage : LiftingStage) :
    ∀ (index : Int) (st : EvalState), Good input stages st → 0 ≤ index →
      index < (input.length : Int) →
      ∃ st', compute_value_op R l stage index st
          = (st', some (compute_value stage (applyStages (stages.take l) input) index.toNat)) ∧
        Good input stages st' ∧ Reaches l st st' ∧ st.time < st'.time := by
  intro index st hG h0 h1
  have hcast : ((index.toNat : Nat) : Int) = index := Int.toNat_of_nonneg h0
  rcases Bool.eq_false_or_eq_true (stage.lift_type.update_even == (index % 2 == 0))
    with hcond | hcond
  · -- rewritten parity
    have hcondN : (stage.lift_type.update_even == ((index.toNat : Nat) % 2 == 0)) = true := by
      rw [← int_nat_even index h0]; exact hcond
    obtain ⟨s1, hloop, hG1, hReach1⟩ := liftSumLoop_ok input stages h2 l hl R hread stage index
      (List.range stage.L) 0 st hG
    obtain ⟨s2, hfin, hG2, hReach2, ht2⟩ := hread index s1 hG1 h0 h1
    refine ⟨s2, ?_, hG2, reaches_trans hReach1 hReach2,
      lt_of_le_of_lt hReach1.timeLe ht2⟩
    rw [compute_value_op_updated R l stage index st s1 s2 _ _ hcond hloop hfin]
    have hval : compute_value stage (applyStages (stages.take l) input) index.toNat
        = (if stage.lift_type.add then
            denotAt input stages l index.toNat
              + Int.fdiv (if 0 < stage.S then
                  liftSumAux stage (applyStages (stages.take l) input) index
                    (List.range stage.L) 0 + 2 ^ (stage.S - 1)
                else liftSumAux stage (applyStages (stages.take l) input) index
                  (List.range stage.L) 0) (2 ^ stage.S)
          else
            denotAt input stages l index.toNat
              - Int.fdiv (if 0 < stage.S then
                  liftSumAux stage (applyStages (stages.take l) input) index
                    (List.range stage.L) 0 + 2 ^ (stage.S - 1)
                else liftSumAux stage (applyStages (stages.take l) input) index
                  (List.range stage.L) 0) (2 ^ stage.S)) := by
      simp only [compute_value, hcondN, eq_self_iff_true, if_true, hcast, denotAt]
    rw [hval]
  · -- pass-through parity
    obtain ⟨s', hR, hG', hReach, ht⟩ := hread index st hG h0 h1
    refine ⟨s', ?_, hG', hReach, ht⟩
    rw [compute_value_op_pass R l stage index st hcond, hR]
    have hne : stage.lift_type.update_even ≠ ((index.toNat : Nat) % 2 == 0) := by
      rw [← int_nat_even index h0]
      simpa using hcond
    rw [compute_value_passthrough stage (applyStages (stages.take l) input) index.toNat hne]
    rfl

theorem slotAt_after_write (ms : List (List (Option Int))) (j jv : Nat) (v : Int)
    (hj : j < ms.length) (hjv : jv < (ms.getD j []).length) (lv i : Nat) :
    ((ms.set j ((ms.getD j []).set jv (some v))).getD lv []).getD i none
      = if lv = j ∧ i = jv then some v
        else (ms.getD lv []).getD i none := by
  by_cases hlv : lv = j
  · subst hlv
    rw [getD_set_eq _ _ _ _ hj]
    by_cases hi : i = jv
    · subst hi
      rw [getD_set_eq _ _ _ _ hjv, if_pos ⟨rfl, rfl⟩]
    · rw [getD_set_ne _ _ _ _ _ hi, if_neg (fun hc => hi hc.2)]
  · rw [getD_set_ne _ _ _ _ _ hlv, if_neg (fun hc => hlv hc.1)]

theorem getItemSkeleton_miss_some (ch : Int → EvalState → EvalState × Option Int)
    (level : Nat) (index : Int) (st st3 : EvalState) (v : Int)
    (h : pyGet (st.memos.getD level []) index = some none)
    (hch : ch index
        ({ st with
           time := st.time + 1 + 1,
           stack := st.stack ++ [(level, index, st.time + 1 + 1)] }) = (st3, some v)) :
    getItemSkeleton ch level index st
      = ((tick ({ popStamp st3 with
          memos := (popStamp st3).memos.set level
            (pySet ((popStamp st3).memos.getD level []) index (some v)) })).2,
        some v) := by
  unfold getItemSkeleton
  simp only [tick]
  rw [h, hch]

/-- Preservation of the invariant when a `new_context` frame is pushed. -/
theorem good_push {input : List Int} {stages : List LiftingStage} {st : EvalState}
    (hG : Good input stages st) (lv : Nat) (ix : Int) :
    Good input stages
      ({ st with
         time := st.time + 1 + 1,
         stack := st.stack ++ [(lv, ix, st.time + 1 + 1)] }) := by
  refine ⟨hG.memoCount, hG.baseMemo, hG.memoLen, hG.resolvedVal, ?_, hG.logTimes,
    hG.logKeys, hG.callResolved⟩
  intro f hf
  rcases List.mem_append.mp hf with hf | hf
  · exact le_trans (hG.stackTimes f hf) (by show st.time ≤ st.time + 1 + 1; omega)
  · rw [List.mem_singleton.mp hf]

/-- Main bridge: a read of an in-range index of any array of the chain,
from any state satisfying the invariant, succeeds and returns exactly the
value the chain denotes there; afterwards the invariant still holds, the
slot read is resolved, the frame stack is restored and the clock has
advanced. -/
theorem getItemOp_bridge (input : List Int) (stages : List LiftingStage)
    (h2 : 2 ≤ input.length) :
    ∀ l, l ≤ stages.length → ∀ (index : Int) (st : EvalState),
      Good input stages st → 0 ≤ index → index < (input.length : Int) →
      ∃ st', getItemOp stages l index st
          = (st', some (denotAt input stages l index.toNat)) ∧
        Good input stages st' ∧ Reaches l st st' ∧ st.time < st'.time ∧
        slotAt st' l index.toNat = some (denotAt input stages l index.toNat) := by
  intro l
  induction l with
  | zero =>
      intro _ index st hG h0 h1
      have hlen : (st.memos.getD 0 []).length = input.length := hG.memoLen 0 (Nat.zero_le _)
      have hj : index.toNat < input.length := by omega
      have hslot : (st.memos.getD 0 []).getD index.toNat none
          = some (input.getD index.toNat 0) := by
        rw [hG.baseMemo]
        have hj' : index.toNat < (input.map some).length := by simpa using hj
        rw [List.getD_eq_getElem _ none hj', List.getElem_map,
          List.getD_eq_getElem _ 0 hj]
      have hpg : pyGet (st.memos.getD 0 []) index
          = some (some (input.getD index.toNat 0)) := by
        rw [pyGet_slot _ index h0 (by rw [hlen]; exact h1), hslot]
      refine ⟨{ st with time := st.time + 1 + 1 }, ?_, good_time_bump hG _ (by omega),
        reaches_time_bump 0 st _ (by omega), (by show st.time < st.time + 1 + 1; omega), ?_⟩
      · show getItemSkeleton (fun _ s => (s, none)) 0 index st = _
        rw [getItemSkeleton_hit _ 0 index st _ hpg]
        rfl
      · show (st.memos.getD 0 []).getD index.toNat none = _
        rw [hslot]
        rfl
  | succ l ih =>
      intro hl index st hG h0 h1
      have hl' : l ≤ stages.length := Nat.le_of_succ_le hl
      have hltL : l < stages.length := hl
      obtain ⟨stage, hstage⟩ : ∃ stage, stages.get? l = some stage := by
        rw [List.get?_eq_getElem?, List.getElem?_eq_getElem hltL]
        exact ⟨_, rfl⟩
      have hlen : (st.memos.getD (l + 1) []).length = input.length := hG.memoLen (l + 1) hl
      have hj : index.toNat < input.length := by omega
      have hpg0 : pyGet (st.memos.getD (l + 1) []) index
          = some ((st.memos.getD (l + 1) []).getD index.toNat none) :=
        pyGet_slot _ index h0 (by rw [hlen]; exact h1)
      have hunfold : getItemOp stages (l + 1) index st
          = getItemSkeleton (compute_value_op (getItemOp stages l) l stage)
              (l + 1) index st := by
        show (match stages.get? l with
          | some stage => getItemSkeleton
              (compute_value_op (getItemOp stages l) l stage) (l + 1) index st
          | none => (st, none)) = _
        rw [hstage]
      have hdstep := denotAt_succ input stages l stage hstage index.toNat hj
      rcases hslot : (st.memos.getD (l + 1) []).getD index.toNat none with _ | v
      · -- unresolved slot: compute inside a scope
        have hpg : pyGet (st.memos.getD (l + 1) []) index = some none := by
          rw [hpg0, hslot]
        have hG2 : Good input stages
            ({ st with
               time := st.time + 1 + 1,
               stack := st.stack ++ [(l + 1, index, st.time + 1 + 1)] }) :=
          good_push hG (l + 1) index
        have hread : ∀ (p : Int) (s : EvalState), Good input stages s → 0 ≤ p →
            p < (input.length : Int) →
            ∃ s', getItemOp stages l p s = (s', some (denotAt input stages l p.toNat)) ∧
              Good input stages s' ∧ Reaches l s s' ∧ s.time < s'.time := by
          intro p s hGs hp0 hp1
          obtain ⟨s', a, b, c, d, _⟩ := ih hl' p s hGs hp0 hp1
          exact ⟨s', a, b, c, d⟩
        obtain ⟨st3, hcomp, hG3, hReach3, _⟩ :=
          compute_value_op_ok input stages h2 l hl' (getItemOp stages l) hread stage index
            ({ st with
               time := st.time + 1 + 1,
               stack := st.stack ++ [(l + 1, index, st.time + 1 + 1)] }) hG2 h0 h1
        have hstack3 : st3.stack = st.stack ++ [(l + 1, index, st.time + 1 + 1)] :=
          hReach3.stackEq
        have htime3 : st.time + 1 + 1 ≤ st3.time := hReach3.timeLe
        have hhi : st3.memos.getD (l + 1) [] = st.memos.getD (l + 1) [] :=
          hReach3.hiEq (l + 1) (Nat.lt_succ_self l)
        have hlen3 : (st3.memos.getD (l + 1) []).length = input.length :=
          hG3.memoLen (l + 1) hl
        have hset : pySet (st3.memos.getD (l + 1) []) index
            (some (compute_value stage (applyStages (stages.take l) input) index.toNat))
            = (st3.memos.getD (l + 1) []).set index.toNat
                (some (compute_value stage (applyStages (stages.take l) input)
                  index.toNat)) :=
          pySet_inRange _ index _ h0 (by rw [hlen3]; exact h1)
        have hpop := popStamp_push st3 ((l + 1, index, st.time + 1 + 1)) st.stack hstack3
        have hjlt : l + 1 < st3.memos.length := by rw [hG3.memoCount]; omega
        have hjvlt : index.toNat < (st3.memos.getD (l + 1) []).length := by
          rw [hlen3]; exact hj
        have hslotF := slotAt_after_write st3.memos (l + 1) index.toNat
          (compute_value stage (applyStages (stages.take l) input) index.toNat) hjlt hjvlt
        have hslot3 : slotAt st3 (l + 1) index.toNat = none := by
          show (st3.memos.getD (l + 1) []).getD index.toNat none = none
          rw [hhi]
          exact hslot
        refine ⟨({ st3 with
                   time := st3.time + 1 + 1,
                   stack := st.stack,
                   callLog := st3.callLog
                     ++ [⟨l + 1, index, st.time + 1 + 1, st3.time + 1⟩],
                   memos := st3.memos.set (l + 1)
                     ((st3.memos.getD (l + 1) []).set index.toNat
                       (some (compute_value stage (applyStages (stages.take l) input)
                         index.toNat))) }),
          ?_, ?_, ?_, (by show st.time < st3.time + 1 + 1; omega), ?_⟩
        · -- the read reduces to the computed value
          rw [hunfold, hdstep]
          rw [getItemSkeleton_miss_some (compute_value_op (getItemOp stages l) l stage)
            (l + 1) index st st3 _ hpg hcomp]
          rw [hpop]
          dsimp only [tick]
          rw [hset]
        · -- the invariant holds afterwards
          refine ⟨?_, ?_, ?_, ?_, ?_, ?_, ?_, ?_⟩
          · show (st3.memos.set _ _).length = _
            rw [List.length_set]
            exact hG3.memoCount
          · show (st3.memos.set _ _).getD 0 [] = _
            rw [getD_set_ne _ _ _ _ _ (by omega)]
            exact hG3.baseMemo
          · intro lv hlv
            show ((st3.memos.set _ _).getD lv []).length = _
            by_cases hcase : lv = l + 1
            · subst hcase
              rw [getD_set_eq _ _ _ _ hjlt, List.length_set]
              exact hlen3
            · rw [getD_set_ne _ _ _ _ _ hcase]
              exact hG3.memoLen lv hlv
          · intro lv i v' hv
            have hv' : (if lv = l + 1 ∧ i = index.toNat
                then some (compute_value stage (applyStages (stages.take l) input)
                  index.toNat)
                else (st3.memos.getD lv []).getD i none) = some v' := by
              rw [← hslotF lv i]
              exact hv
            by_cases hcase : lv = l + 1 ∧ i = index.toNat
            · rw [if_pos hcase] at hv'
              obtain ⟨hc1, hc2⟩ := hcase
              subst hc1; subst hc2
              rw [← Option.some_inj.mp hv', hdstep]
            · rw [if_neg hcase] at hv'
              exact hG3.resolvedVal lv i v' hv'
          · intro f hf
            show f.2.2 ≤ st3.time + 1 + 1
            have := hG.stackTimes f hf
            omega
          · intro r hr
            rcases List.mem_append.mp hr with hr | hr
            · exact hG3.logTimes r hr
            · rw [List.mem_singleton.mp hr]
              show st.time + 1 + 1 < st3.time + 1
              omega
          · show ((st3.callLog ++ [_]).map _).Nodup
            rw [List.map_append]
            rw [List.nodup_append]
            refine ⟨hG3.logKeys, by simp, ?_⟩
            intro a ha hb
            simp only [List.map_cons, List.map_nil, List.mem_singleton] at hb
            subst hb
            obtain ⟨r, hr, hkey⟩ := List.mem_map.mp ha
            have hr1 : r.level = l + 1 := congrArg Prod.fst hkey
            have hr2 : r.index = index := congrArg Prod.snd hkey
            have hres := (hG3.callResolved r hr).2
            rw [hr1, hr2] at hres
            exact hres hslot3
          · intro r hr
            rcases List.mem_append.mp hr with hr | hr
            · refine ⟨(hG3.callResolved r hr).1, ?_⟩
              show ((st3.memos.set _ _).getD r.level []).getD r.index.toNat none ≠ none
              rw [hslotF r.level r.index.toNat]
              by_cases hcase : r.level = l + 1 ∧ r.index.toNat = index.toNat
              · rw [if_pos hcase]
                simp
              · rw [if_neg hcase]
                exact (hG3.callResolved r hr).2
            · rw [List.mem_singleton.mp hr]
              refine ⟨h0, ?_⟩
              show ((st3.memos.set _ _).getD (l + 1) []).getD index.toNat none ≠ none
              rw [hslotF (l + 1) index.toNat, if_pos ⟨rfl, rfl⟩]
              simp
        · -- the step relation holds
          refine ⟨rfl, by show st.time ≤ st3.time + 1 + 1; omega, ?_, ?_, ?_⟩
          · intro lv i v' hv
            have h3 : slotAt st3 lv i = some v' := hReach3.mono lv i v' hv
            show ((st3.memos.set _ _).getD lv []).getD i none = some v'
            rw [hslotF lv i]
            by_cases hcase : lv = l + 1 ∧ i = index.toNat
            · exfalso
              obtain ⟨hc1, hc2⟩ := hcase
              subst hc1; subst hc2
              rw [hslot3] at h3
              exact Option.noConfusion h3
            · rw [if_neg hcase]
              exact h3
          · intro lv hlv
            show (st3.memos.set _ _).getD lv [] = _
            rw [getD_set_ne _ _ _ _ _ (by omega)]
            exact hReach3.hiEq lv (by omega)
          · obtain ⟨added, hadd, hadd'⟩ := hReach3.logExt
            refine ⟨added ++ [⟨l + 1, index, st.time + 1 + 1, st3.time + 1⟩], ?_, ?_⟩
            · show st3.callLog ++ [_] = st.callLog ++ (added ++ [_])
              rw [hadd, List.append_assoc]
            · intro r hr
              rcases List.mem_append.mp hr with hr | hr
              · exact le_trans (hadd' r hr) (Nat.le_succ l)
              · rw [List.mem_singleton.mp hr]
        · -- the slot just computed is resolved
          show ((st3.memos.set _ _).getD (l + 1) []).getD index.toNat none = _
          rw [hslotF (l + 1) index.toNat, if_pos ⟨rfl, rfl⟩, hdstep]
      · -- resolved slot: return the cached value
        have hpg : pyGet (st.memos.getD (l + 1) []) index = some (some v) := by
          rw [hpg0, hslot]
        have hv : v = denotAt input stages (l + 1) index.toNat :=
          hG.resolvedVal (l + 1) index.toNat v hslot
        refine ⟨{ st with time := st.time + 1 + 1 }, ?_, good_time_bump hG _ (by omega),
          reaches_time_bump _ st _ (by omega), (by show st.time < st.time + 1 + 1; omega), ?_⟩
        · rw [hunfold, getItemSkeleton_hit _ _ index st v hpg, hv]
        · show (st.memos.getD (l + 1) []).getD index.toNat none = _
          rw [hslot, hv]

/-! ## The initial state and whole runs -/

theorem replicate_none_getD (n i : Nat) :
    (List.replicate n (none : Option Int)).getD i none = none := by
  by_cases hi : i < n
  · rw [List.getD_eq_getElem _ none (by simpa using hi)]
    simp
  · rw [List.getD_eq_default _ none (by simpa using Nat.le_of_not_lt hi)]

theorem map_some_getD (input : List Int) (i : Nat) (v : Int)
    (h : (input.map some).getD i none = some v) : v = input.getD i 0 := by
  by_cases hi : i < input.length
  · rw [List.getD_eq_getElem _ none (by simpa using hi), List.getElem_map] at h
    rw [List.getD_eq_getElem _ 0 hi]
    exact (Option.some_inj.mp h).symm
  · rw [List.getD_eq_default _ none (by simpa using Nat.le_of_not_lt hi)] at h
    exact absurd h (by simp)

/-- The state right after construction satisfies the invariant. -/
theorem good_init (input : List Int) (stages : List LiftingStage) :
    Good input stages (initState input stages) := by
  refine ⟨?_, rfl, ?_, ?_, ?_, ?_, ?_, ?_⟩
  · simp [initState]
  · intro l hl
    match l with
    | 0 =>
        show (input.map some).length = _
        simp
    | k + 1 =>
        have hk : k < stages.length := by omega
        show ((input.map some
          :: stages.map fun _ => List.replicate input.length none).getD (k + 1) []).length = _
        rw [List.getD_cons_succ, List.getD_eq_getElem _ [] (by simpa using hk),
          List.getElem_map, List.length_replicate]
  · intro l i v hv
    match l with
    | 0 => exact map_some_getD input i v hv
    | k + 1 =>
        exfalso
        have hnone : slotAt (initState input stages) (k + 1) i = none := by
          show (((input.map some
            :: stages.map fun _ => List.replicate input.length none).getD (k + 1) []).getD
              i none) = none
          rw [List.getD_cons_succ]
          by_cases hk : k < stages.length
          · rw [List.getD_eq_getElem _ [] (by simpa using hk), List.getElem_map]
            exact replicate_none_getD _ _
          · rw [List.getD_eq_default _ [] (by simpa using Nat.le_of_not_lt hk)]
            rfl
        rw [hnone] at hv
        exact Option.noConfusion hv
  · intro f hf
    exact absurd hf (List.not_mem_nil f)
  · intro r hr
    exact absurd hr (List.not_mem_nil r)
  · show (([] : List CallRec).map _).Nodup
    simp
  · intro r hr
    exact absurd hr (List.not_mem_nil r)

/-- A whole run of in-range reads preserves the invariant and only evolves
the state as `Reaches` describes. -/
theorem runCmds_good (input : List Int) (stages : List LiftingStage)
    (h2 : 2 ≤ input.length) :
    ∀ (cmds : List (Nat × Int)) (st : EvalState), Good input stages st →
      ValidCmds stages input.length cmds →
      Good input stages (runCmds stages cmds st) ∧
        Reaches stages.length st (runCmds stages cmds st) := by
  intro cmds
  induction cmds with
  | nil => intro st hG _; exact ⟨hG, reaches_refl _ _⟩
  | cons c cs ih =>
      intro st hG hV
      have hc := hV c (List.mem_cons_self _ _)
      obtain ⟨st1, heq, hG1, hR1, _, _⟩ :=
        getItemOp_bridge input stages h2 c.1 hc.1 c.2 st hG hc.2.1 hc.2.2
      have hV' : ValidCmds stages input.length cs :=
        fun d hd => hV d (List.mem_cons_of_mem _ hd)
      have hrun : runCmds stages (c :: cs) st
          = runCmds stages cs (getItemOp stages c.1 c.2 st).1 := rfl
      rw [hrun, heq]
      obtain ⟨a, b⟩ := ih st1 hG1 hV'
      exact ⟨a, reaches_trans (reaches_mono_bound hc.1 hR1) b⟩

/-- Every slot actually read during a run ends up resolved with its
denoted value. -/
theorem runCmds_resolves (input : List Int) (stages : List LiftingStage)
    (h2 : 2 ≤ input.length) :
    ∀ (cmds : List (Nat × Int)) (st : EvalState), Good input stages st →
      ValidCmds stages input.length cmds → ∀ c ∈ cmds,
      slotAt (runCmds stages cmds st) c.1 c.2.toNat
        = some (denotAt input stages c.1 c.2.toNat) := by
  intro cmds
  induction cmds with
  | nil => intro st _ _ c hc; exact absurd hc (List.not_mem_nil c)
  | cons d cs ih =>
      intro st hG hV c hc
      have hd := hV d (List.mem_cons_self _ _)
      obtain ⟨st1, heq, hG1, hR1, _, hslot1⟩ :=
        getItemOp_bridge input stages h2 d.1 hd.1 d.2 st hG hd.2.1 hd.2.2
      have hV' : ValidCmds stages input.length cs :=
        fun e he => hV e (List.mem_cons_of_mem _ he)
      have hrun : runCmds stages (d :: cs) st = runCmds stages cs st1 := by
        show runCmds stages cs (getItemOp stages d.1 d.2 st).1 = _
        rw [heq]
      rw [hrun]
      rcases List.mem_cons.mp hc with hc | hc
      · subst hc
        obtain ⟨_, hR⟩ := runCmds_good input stages h2 cs st1 hG1 hV'
        exact hR.mono _ _ _ hslot1
      · exact ih st1 hG1 hV' c hc

/-- Reading an already-resolved slot returns the cached value and only
ticks the clock twice: no computation, no new call record, no memo
change. -/
theorem getItemOp_cached (stages : List LiftingStage) (st : EvalState) (l : Nat)
    (hl : l ≤ stages.length) (index : Int) (h0 : 0 ≤ index)
    (hmem : index < (((st.memos.getD l []).length : Nat) : Int)) (v : Int)
    (hv : slotAt st l index.toNat = some v) :
    getItemOp stages l index st = ({ st with time := st.time + 1 + 1 }, some v) := by
  have hpg : pyGet (st.memos.getD l []) index = some (some v) := by
    rw [pyGet_slot _ index h0 hmem]
    exact congrArg some hv
  match l, hl with
  | 0, _ =>
      show getItemSkeleton (fun _ s => (s, none)) 0 index st = _
      exact getItemSkeleton_hit _ 0 index st v hpg
  | l + 1, hl =>
      have hltL : l < stages.length := hl
      obtain ⟨stage, hstage⟩ : ∃ stage, stages.get? l = some stage := by
        rw [List.get?_eq_getElem?, List.getElem?_eq_getElem hltL]
        exact ⟨_, rfl⟩
      have h1 : getItemOp stages (l + 1) index st
          = getItemSkeleton (compute_value_op (getItemOp stages l) l stage)
              (l + 1) index st := by
        show (match stages.get? l with
          | some stage => getItemSkeleton
              (compute_value_op (getItemOp stages l) l stage) (l + 1) index st
          | none => (st, none)) = _
        rw [hstage]
      rw [h1]
      exact getItemSkeleton_hit _ _ index st v hpg

/-- Distinct call-record keys bound the per-slot record count by one. -/
theorem count_le_one_of_nodup_keys (log : List CallRec)
    (h : (log.map (fun r => (r.level, r.index))).Nodup) (l : Nat) (i : Int) :
    (log.filter (fun r => r.level == l && r.index == i)).length ≤ 1 := by
  induction log with
  | nil => simp
  | cons r rs ih =>
      rw [List.map_cons, List.nodup_cons] at h
      rw [List.filter_cons]
      by_cases hr : (r.level == l && r.index == i) = true
      · rw [if_pos hr]
        have hrl : r.level = l ∧ r.index = i := by
          simpa using hr
        have hnil : rs.filter (fun q => q.level == l && q.index == i) = [] := by
          rw [List.filter_eq_nil_iff]
          intro q hq hpq
          have hql : q.level = l ∧ q.index = i := by simpa using hpq
          apply h.1
          refine List.mem_map.mpr ⟨q, hq, ?_⟩
          rw [hql.1, hql.2, hrl.1, hrl.2]
        rw [hnil]
        simp
      · rw [if_neg hr]
        exact ih h.2

theorem list_eq_of_getD_opt (a b : List (Option Int)) (hlen : a.length = b.length)
    (h : ∀ i, i < a.length → a.getD i none = b.getD i none) : a = b := by
  apply List.ext_getElem hlen
  intro i h1 h2'
  have hx := h i h1
  rw [List.getD_eq_getElem _ none h1, List.getD_eq_getElem _ none h2'] at hx
  exact hx

/-- C1 as stated by the specification is false: for the odd length 3 the
full chain on `[0, 0, 2]` (haar) does not reproduce the input — the final
`Decoder Output` array resolves to `[0, 0, 1]`.  (At an odd length the
clamp `min(pos, n-1)` of an even-update stage can hit an even position, so
the stage reads its own parity and is no longer self-invertible.) -/
theorem C1_counterexample :
    (runCmds (chainStages .haar_no_shift) (demandCmds (chainStages .haar_no_shift) 3)
        (initState [0, 0, 2] (chainStages .haar_no_shift))).memos.getD
        (chainStages .haar_no_shift).length []
      ≠ [0, 0, 2].map some := by decide

/-- C1 (amended): for every supported wavelet identifier and every integer
input sequence of even length ≥ 2, building the full chain and reading
every element of the final decoder-output array resolves that array to
exactly the original input sequence, element for element. -/
theorem C1_roundtrip_even_length (w : WaveletFilters) (input : List Int)
    (h2 : 2 ≤ input.length) (heven : input.length % 2 = 0) :
    (runCmds (chainStages w) (demandCmds (chainStages w) input.length)
        (initState input (chainStages w))).memos.getD (chainStages w).length []
      = input.map some := by
  have hvalid : ValidCmds (chainStages w) input.length
      (demandCmds (chainStages w) input.length) := by
    intro c hc
    simp only [demandCmds, List.mem_map, List.mem_range] at hc
    obtain ⟨i, hi, rfl⟩ := hc
    refine ⟨le_refl _, by show (0 : Int) ≤ (i : Int); omega, ?_⟩
    show (i : Int) < (input.length : Int)
    exact_mod_cast hi
  obtain ⟨hGf, _⟩ := runCmds_good input (chainStages w) h2 _ _ (good_init _ _) hvalid
  apply list_eq_of_getD_opt
  · rw [hGf.memoLen (chainStages w).length (le_refl _)]
    simp
  · intro i hi
    rw [hGf.memoLen (chainStages w).length (le_refl _)] at hi
    have hc : ((chainStages w).length, (i : Int))
        ∈ demandCmds (chainStages w) input.length := by
      simp only [demandCmds, List.mem_map, List.mem_range]
      exact ⟨i, hi, rfl⟩
    have hres := runCmds_resolves input (chainStages w) h2 _ _ (good_init _ _) hvalid _ hc
    have htoNat : ((i : Int)).toNat = i := by omega
    rw [htoNat] at hres
    show slotAt (runCmds (chainStages w) (demandCmds (chainStages w) input.length)
        (initState input (chainStages w))) (chainStages w).length i
      = (input.map some).getD i none
    rw [hres]
    have hdenot : denotAt input (chainStages w) (chainStages w).length i
        = input.getD i 0 := by
      unfold denotAt
      rw [List.take_length]
      show (fullChainOutput w input).getD i 0 = _
      rw [fullChainOutput_eq_input w input heven]
    rw [hdenot]
    have hi'' : i < (input.map some).length := by simpa using hi
    rw [List.getD_eq_getElem _ none hi'', List.getElem_map, List.getD_eq_getElem _ 0 hi]

/-- Witness for the amended C1 at a concrete instance: haar on `[1, 2]`. -/
theorem C1_roundtrip_even_length_witness :
    (runCmds (chainStages .haar_no_shift) (demandCmds (chainStages .haar_no_shift) 2)
        (initState [1, 2] (chainStages .haar_no_shift))).memos.getD
        (chainStages .haar_no_shift).length []
      = [1, 2].map some :=
  C1_roundtrip_even_length .haar_no_shift [1, 2] (by decide) (by decide)

/-- C3: for a fixed input and wavelet, the values the chain's arrays
resolve to are independent of the order in which in-range elements are
forced: any two valid command sequences (block order, demand-driven order
and interleaved chained-filter order are all instances) agree on every
slot both of them resolve, and any element both sequences read directly
resolves to the same value under both. -/
theorem C3_order_independence (w : WaveletFilters) (input : List Int)
    (h2 : 2 ≤ input.length) (cmds1 cmds2 : List (Nat × Int))
    (hv1 : ValidCmds (chainStages w) input.length cmds1)
    (hv2 : ValidCmds (chainStages w) input.length cmds2) :
    (∀ l i v1 v2,
      slotAt (runCmds (chainStages w) cmds1 (initState input (chainStages w))) l i
          = some v1 →
      slotAt (runCmds (chainStages w) cmds2 (initState input (chainStages w))) l i
          = some v2 →
      v1 = v2) ∧
    (∀ c ∈ cmds1, c ∈ cmds2 →
      slotAt (runCmds (chainStages w) cmds1 (initState input (chainStages w)))
          c.1 c.2.toNat
        = slotAt (runCmds (chainStages w) cmds2 (initState input (chainStages w)))
            c.1 c.2.toNat) := by
  obtain ⟨hG1, _⟩ := runCmds_good input (chainStages w) h2 cmds1 _ (good_init _ _) hv1
  obtain ⟨hG2, _⟩ := runCmds_good input (chainStages w) h2 cmds2 _ (good_init _ _) hv2
  constructor
  · intro l i v1 v2 hs1 hs2
    rw [hG1.resolvedVal l i v1 hs1, hG2.resolvedVal l i v2 hs2]
  · intro c hc1 hc2
    rw [runCmds_resolves input (chainStages w) h2 cmds1 _ (good_init _ _) hv1 c hc1,
      runCmds_resolves input (chainStages w) h2 cmds2 _ (good_init _ _) hv2 c hc2]

/-- Witness for C3 at a concrete instance: block order and demand order on
haar with input `[1, 2]` resolve the decoder-output slot 1 identically. -/
theorem C3_order_independence_witness :
    slotAt (runCmds (chainStages .haar_no_shift) (blockCmds (chainStages .haar_no_shift) 2)
        (initState [1, 2] (chainStages .haar_no_shift))) 4 1
      = slotAt (runCmds (chainStages .haar_no_shift)
          (demandCmds (chainStages .haar_no_shift) 2)
          (initState [1, 2] (chainStages .haar_no_shift))) 4 1 :=
  (C3_order_independence .haar_no_shift [1, 2] (by decide) _ _ (by decide) (by decide)).2
    (4, (1 : Int)) (by decide) (by decide)

/-- C4: memoization is idempotent.  (i) Any run of in-range reads leaves at
most one call record per (array, index) slot — the value computation runs
at most once per slot.  (ii) Reading a pair that was already read returns
the identical value and changes neither the memo tables nor the call log —
no recomputation.  (iii) A slot, once Resolved, is never changed by any
subsequent reads. -/
theorem C4_memoization_idempotent (w : WaveletFilters) (input : List Int)
    (h2 : 2 ≤ input.length) (cmds : List (Nat × Int))
    (hv : ValidCmds (chainStages w) input.length cmds) :
    (∀ (l : Nat) (i : Int),
      ((runCmds (chainStages w) cmds (initState input (chainStages w))).callLog.filter
          (fun r => r.level == l && r.index == i)).length ≤ 1) ∧
    (∀ (l : Nat) (index : Int), l ≤ (chainStages w).length → 0 ≤ index →
      index < (input.length : Int) →
      (getItemOp (chainStages w) l index
          ((getItemOp (chainStages w) l index
            (runCmds (chainStages w) cmds (initState input (chainStages w)))).1)).2
        = (getItemOp (chainStages w) l index
            (runCmds (chainStages w) cmds (initState input (chainStages w)))).2 ∧
      (getItemOp (chainStages w) l index
          ((getItemOp (chainStages w) l index
            (runCmds (chainStages w) cmds (initState input (chainStages w)))).1)).1.memos
        = ((getItemOp (chainStages w) l index
            (runCmds (chainStages w) cmds (initState input (chainStages w)))).1).memos ∧
      (getItemOp (chainStages w) l index
          ((getItemOp (chainStages w) l index
            (runCmds (chainStages w) cmds (initState input (chainStages w)))).1)).1.callLog
        = ((getItemOp (chainStages w) l index
            (runCmds (chainStages w) cmds (initState input (chainStages w)))).1).callLog) ∧
    (∀ (extra : List (Nat × Int)), ValidCmds (chainStages w) input.length extra →
      ∀ (l i : Nat) (v : Int),
        slotAt (runCmds (chainStages w) cmds (initState input (chainStages w))) l i
          = some v →
        slotAt (runCmds (chainStages w) extra
            (runCmds (chainStages w) cmds (initState input (chainStages w)))) l i
          = some v) := by
  have hGst := (runCmds_good input (chainStages w) h2 cmds _ (good_init _ _) hv).1
  refine ⟨?_, ?_, ?_⟩
  · intro l i
    exact count_le_one_of_nodup_keys _ hGst.logKeys l i
  · intro l index hl h0 h1
    obtain ⟨st1, heq, hG1, _, _, hslot1⟩ :=
      getItemOp_bridge input (chainStages w) h2 l hl index _ hGst h0 h1
    have hcache := getItemOp_cached (chainStages w) st1 l hl index h0
      (by rw [hG1.memoLen l hl]; exact h1) _ hslot1
    rw [heq]
    show (getItemOp (chainStages w) l index st1).2
        = (st1, some (denotAt input (chainStages w) l index.toNat)).2 ∧
      (getItemOp (chainStages w) l index st1).1.memos = st1.memos ∧
      (getItemOp (chainStages w) l index st1).1.callLog = st1.callLog
    rw [hcache]
    exact ⟨rfl, rfl, rfl⟩
  · intro extra hvx l i v hslot
    exact ((runCmds_good input (chainStages w) h2 extra _ hGst hvx).2).mono l i v hslot

/-- Witness for C4 at a concrete instance: re-reading decoder-output slot 1
of the haar chain on `[1, 2]` returns the same value. -/
theorem C4_memoization_idempotent_witness :
    (getItemOp (chainStages .haar_no_shift) 4 1
        ((getItemOp (chainStages .haar_no_shift) 4 1
          (runCmds (chainStages .haar_no_shift) (demandCmds (chainStages .haar_no_shift) 2)
            (initState [1, 2] (chainStages .haar_no_shift)))).1)).2
      = (getItemOp (chainStages .haar_no_shift) 4 1
          (runCmds (chainStages .haar_no_shift) (demandCmds (chainStages .haar_no_shift) 2)
            (initState [1, 2] (chainStages .haar_no_shift)))).2 :=
  ((C4_memoization_idempotent .haar_no_shift [1, 2] (by decide)
      (demandCmds (chainStages .haar_no_shift) 2) (by decide)).2.1 4 1
    (by decide) (by decide) (by decide)).1

/-- C7: the logical clock is strictly monotonic across successive reads of
the `time` property; after any run of in-range reads every completed call
record has `start_time < end_time` and the active-call stack is empty
again; and every read restores the stack to exactly its prior state. -/
theorem C7_clock_and_stack :
    (∀ st : EvalState, (tick st).1 < (tick (tick st).2).1) ∧
    (∀ (w : WaveletFilters) (input : List Int) (cmds : List (Nat × Int)),
      2 ≤ input.length → ValidCmds (chainStages w) input.length cmds →
      (∀ r ∈ (runCmds (chainStages w) cmds (initState input (chainStages w))).callLog,
          r.startTime < r.endTime) ∧
      (runCmds (chainStages w) cmds (initState input (chainStages w))).stack = []) ∧
    (∀ (w : WaveletFilters) (input : List Int) (cmds : List (Nat × Int)) (l : Nat)
        (index : Int),
      2 ≤ input.length → ValidCmds (chainStages w) input.length cmds →
      l ≤ (chainStages w).length → 0 ≤ index → index < (input.length : Int) →
      ((getItemOp (chainStages w) l index
          (runCmds (chainStages w) cmds (initState input (chainStages w)))).1).stack
        = (runCmds (chainStages w) cmds (initState input (chainStages w))).stack) := by
  refine ⟨?_, ?_, ?_⟩
  · intro st
    show st.time + 1 < st.time + 1 + 1
    omega
  · intro w input cmds h2 hv
    obtain ⟨hG, hR⟩ := runCmds_good input (chainStages w) h2 cmds _ (good_init _ _) hv
    exact ⟨hG.logTimes, hR.stackEq⟩
  · intro w input cmds l index h2 hv hl h0 h1
    obtain ⟨hG, _⟩ := runCmds_good input (chainStages w) h2 cmds _ (good_init _ _) hv
    obtain ⟨st1, heq, _, hR1, _, _⟩ :=
      getItemOp_bridge input (chainStages w) h2 l hl index _ hG h0 h1
    rw [heq]
    exact hR1.stackEq

/-- Witness for C7 at a concrete instance: after demand-reading the haar
chain on `[1, 2]` the call stack is empty again. -/
theorem C7_clock_and_stack_witness :
    (runCmds (chainStages .haar_no_shift) (demandCmds (chainStages .haar_no_shift) 2)
      (initState [1, 2] (chainStages .haar_no_shift))).stack = [] :=
  (C7_clock_and_stack.2.1 .haar_no_shift [1, 2]
    (demandCmds (chainStages .haar_no_shift) 2) (by decide) (by decide)).2

/-- C9 as stated by the specification is false: a read with the index `-1`,
which lies outside `[0, n)`, does not fail — Python's negative indexing
makes it return the array's last value.  Here the input array `[5, 6, 7]`
read at `-1` returns `7`. -/
theorem C9_counterexample :
    ¬ (0 ≤ (-1 : Int) ∧ (-1 : Int) < 3) ∧
    (getItemOp (chainStages .haar_no_shift) 0 (-1)
        (initState [5, 6, 7] (chainStages .haar_no_shift))).2 = some 7 := by
  constructor
  · decide
  · decide

/-- C9 (amended): a read with an index outside Python's valid range
`[-n, n)` — that is, `index ≥ n` or `index < -n` — fails with a bounds
error reported to the caller, never returning a value, and leaves every
array's slot states unchanged.  (An index in `[-n, 0)` instead counts from
the end of the array, per Python list semantics.) -/
theorem C9_out_of_range_read (stages : List LiftingStage) (l : Nat) (index : Int)
    (st : EvalState)
    (h : ((st.memos.getD l []).length : Int) ≤ index
      ∨ index < -((st.memos.getD l []).length : Int)) :
    (getItemOp stages l index st).2 = none ∧
      (getItemOp stages l index st).1.memos = st.memos := by
  have hpg : pyGet (st.memos.getD l []) index = none := pyGet_oob _ index h
  match l, hpg with
  | 0, hpg =>
      have heq : getItemOp stages 0 index st
          = ({ st with time := st.time + 1 + 1 }, none) := by
        show getItemSkeleton (fun _ s => (s, none)) 0 index st = _
        exact getItemSkeleton_indexError _ _ _ _ hpg
      rw [heq]
      exact ⟨rfl, rfl⟩
  | l + 1, hpg =>
      cases hst : stages.get? l with
      | none =>
          have heq : getItemOp stages (l + 1) index st = (st, none) := by
            show (match stages.get? l with
              | some stage => getItemSkeleton
                  (compute_value_op (getItemOp stages l) l stage) (l + 1) index st
              | none => (st, none)) = _
            rw [hst]
          rw [heq]
          exact ⟨rfl, rfl⟩
      | some stage =>
          have heq : getItemOp stages (l + 1) index st
              = ({ st with time := st.time + 1 + 1 }, none) := by
            have h1 : getItemOp stages (l + 1) index st
                = getItemSkeleton (compute_value_op (getItemOp stages l) l stage)
                    (l + 1) index st := by
              show (match stages.get? l with
                | some stage => getItemSkeleton
                    (compute_value_op (getItemOp stages l) l stage) (l + 1) index st
                | none => (st, none)) = _
              rw [hst]
            rw [h1]
            exact getItemSkeleton_indexError _ _ _ _ hpg
          rw [heq]
          exact ⟨rfl, rfl⟩

/-- Witness for the amended C9 at a concrete instance: reading index 5 of
the length-3 input array fails and leaves the memos unchanged. -/
theorem C9_out_of_range_read_witness :
    (getItemOp (chainStages .haar_no_shift) 0 5
        (initState [1, 2, 3] (chainStages .haar_no_shift))).2 = none ∧
    (getItemOp (chainStages .haar_no_shift) 0 5
        (initState [1, 2, 3] (chainStages .haar_no_shift))).1.memos
      = (initState [1, 2, 3] (chainStages .haar_no_shift)).memos :=
  C9_out_of_range_read (chainStages .haar_no_shift) 0 5
    (initState [1, 2, 3] (chainStages .haar_no_shift)) (by decide)

/-! ## C8: the structure built by `construct_all_arrays` -/

theorem construct_lifted_loop_length (pfx fin : String) (total : Nat) :
    ∀ (stages : List LiftingStage) (i : Nat) (prev : LLLDesc),
      (construct_lifted_loop pfx fin total i prev stages).length = stages.length := by
  intro stages
  induction stages with
  | nil => intro i prev; rfl
  | cons s rest ih =>
      intro i prev
      simp only [construct_lifted_loop, List.length_cons]
      rw [ih]

theorem construct_lifted_loop_chain (pfx fin : String) (total : Nat) :
    ∀ (stages : List LiftingStage) (i : Nat) (prev : LLLDesc) (k : Nat),
      k < stages.length →
      ∃ nm, (prev :: construct_lifted_loop pfx fin total i prev stages).getD (k + 1)
          (LLLDesc.base "" [])
        = LLLDesc.lifted nm
            ((prev :: construct_lifted_loop pfx fin total i prev stages).getD k
              (LLLDesc.base "" []))
            (stages.getD k default) := by
  intro stages
  induction stages with
  | nil => intro i prev k hk; simp at hk
  | cons s rest ih =>
      intro i prev k hk
      cases k with
      | zero =>
          exact ⟨if i ≠ total - 1 then pfx ++ toString (i + 1) else fin, rfl⟩
      | succ k =>
          have hk' : k < rest.length := by
            simp only [List.length_cons] at hk
            omega
          obtain ⟨nm, hnm⟩ := ih (i + 1)
            (LLLDesc.lifted (if i ≠ total - 1 then pfx ++ toString (i + 1) else fin) prev s)
            k hk'
          refine ⟨nm, ?_⟩
          simp only [construct_lifted_loop, List.getD_cons_succ] at hnm ⊢
          exact hnm

theorem construct_lifted_loop_lengthOf (pfx fin : String) (total : Nat) :
    ∀ (stages : List LiftingStage) (i : Nat) (prev : LLLDesc),
      ∀ d ∈ construct_lifted_loop pfx fin total i prev stages,
        d.lengthOf = prev.lengthOf := by
  intro stages
  induction stages with
  | nil => intro i prev d hd; simp [construct_lifted_loop] at hd
  | cons s rest ih =>
      intro i prev d hd
      simp only [construct_lifted_loop, List.mem_cons] at hd
      rcases hd with hd | hd
      · subst hd; rfl
      · exact ih (i + 1)
          (LLLDesc.lifted (if i ≠ total - 1 then pfx ++ toString (i + 1) else fin) prev s)
          d hd

theorem construct_lifted_loop_initSlots (pfx fin : String) (total : Nat) :
    ∀ (stages : List LiftingStage) (i : Nat) (prev : LLLDesc),
      ∀ d ∈ construct_lifted_loop pfx fin total i prev stages,
        d.initSlots = List.replicate prev.lengthOf none := by
  intro stages
  induction stages with
  | nil => intro i prev d hd; simp [construct_lifted_loop] at hd
  | cons s rest ih =>
      intro i prev d hd
      simp only [construct_lifted_loop, List.mem_cons] at hd
      rcases hd with hd | hd
      · subst hd; rfl
      · exact ih (i + 1)
          (LLLDesc.lifted (if i ≠ total - 1 then pfx ++ toString (i + 1) else fin) prev s)
          d hd

theorem construct_lifted_arrays_length (input_lll : LLLDesc) (stages : List LiftingStage)
    (pfx fin : String) :
    (construct_lifted_arrays input_lll stages pfx fin).length = stages.length :=
  construct_lifted_loop_length pfx fin stages.length stages 0 input_lll

theorem construct_lifted_arrays_chain (input_lll : LLLDesc) (stages : List LiftingStage)
    (pfx fin : String) (k : Nat) (hk : k < stages.length) :
    ∃ nm, (input_lll :: construct_lifted_arrays input_lll stages pfx fin).getD (k + 1)
        (LLLDesc.base "" [])
      = LLLDesc.lifted nm
          ((input_lll :: construct_lifted_arrays input_lll stages pfx fin).getD k
            (LLLDesc.base "" []))
          (stages.getD k default) :=
  construct_lifted_loop_chain pfx fin stages.length stages 0 input_lll k hk

theorem construct_lifted_arrays_lengthOf (input_lll : LLLDesc) (stages : List LiftingStage)
    (pfx fin : String) :
    ∀ d ∈ construct_lifted_arrays input_lll stages pfx fin,
      d.lengthOf = input_lll.lengthOf :=
  construct_lifted_loop_lengthOf pfx fin stages.length stages 0 input_lll

theorem construct_lifted_arrays_initSlots (input_lll : LLLDesc) (stages : List LiftingStage)
    (pfx fin : String) :
    ∀ d ∈ construct_lifted_arrays input_lll stages pfx fin,
      d.initSlots = List.replicate input_lll.lengthOf none :=
  construct_lifted_loop_initSlots pfx fin stages.length stages 0 input_lll

theorem consAppend_getD_le {α : Type} (d : α) :
    ∀ (a1 : List α) (first : α) (a2 : List α) (k : Nat), k ≤ a1.length →
      (first :: (a1 ++ a2)).getD k d = (first :: a1).getD k d := by
  intro a1
  induction a1 with
  | nil =>
      intro first a2 k hk
      have hk0 : k = 0 := Nat.le_zero.mp hk
      subst hk0
      rfl
  | cons x t ih =>
      intro first a2 k hk
      cases k with
      | zero => rfl
      | succ k =>
          simp only [List.cons_append, List.getD_cons_succ]
          exact ih x a2 k (by simp only [List.length_cons] at hk; omega)

theorem consAppend_getD_offset {α : Type} (d : α) :
    ∀ (a1 : List α) (first : α) (a2 : List α) (j : Nat),
      (first :: (a1 ++ a2)).getD (a1.length + j) d
        = (List.getLastD a1 first :: a2).getD j d := by
  intro a1
  induction a1 with
  | nil =>
      intro first a2 j
      show (first :: a2).getD (0 + j) d = (first :: a2).getD j d
      rw [Nat.zero_add]
  | cons x t ih =>
      intro first a2 j
      have hidx : (x :: t).length + j = (t.length + j) + 1 := by
        simp only [List.length_cons]
        omega
      rw [hidx]
      simp only [List.cons_append, List.getD_cons_succ, List.getLastD_cons]
      exact ih x a2 j

theorem getD_mem_of_lt {α : Type} :
    ∀ (xs : List α) (d : α) (k : Nat), k < xs.length → xs.getD k d ∈ xs := by
  intro xs
  induction xs with
  | nil => intro d k h; simp at h
  | cons x t ih =>
      intro d k h
      cases k with
      | zero => exact List.mem_cons_self x t
      | succ k =>
          exact List.mem_cons_of_mem x
            (ih d k (by simp only [List.length_cons] at h; omega))

theorem map_eq_replicate_of_mem {α β : Type} (f : α → β) (c : β) :
    ∀ (xs : List α), (∀ d ∈ xs, f d = c) → xs.map f = List.replicate xs.length c := by
  intro xs
  induction xs with
  | nil => intro h; rfl
  | cons x t ih =>
      intro h
      rw [List.map_cons, h x (List.mem_cons_self x t), List.length_cons,
        List.replicate_succ]
      rw [ih (fun d hd => h d (List.mem_cons_of_mem x hd))]

theorem chain_getD_lifted (first : LLLDesc) (A S : List LiftingStage)
    (p1 f1 p2 f2 : String) (a1 a2 : List LLLDesc)
    (ha1 : a1 = construct_lifted_arrays first A p1 f1)
    (ha2 : a2 = construct_lifted_arrays (List.getLastD a1 first) S p2 f2)
    (k : Nat) (hk : k < A.length + S.length) :
    ∃ nm, (first :: (a1 ++ a2)).getD (k + 1) (LLLDesc.base "" [])
      = LLLDesc.lifted nm ((first :: (a1 ++ a2)).getD k (LLLDesc.base "" []))
          ((A ++ S).getD k default) := by
  have hlen1 : a1.length = A.length := by
    rw [ha1]; exact construct_lifted_arrays_length first A p1 f1
  have hlen2 : a2.length = S.length := by
    rw [ha2]; exact construct_lifted_arrays_length _ S p2 f2
  by_cases hcase : k < A.length
  · have e1 : (first :: (a1 ++ a2)).getD (k + 1) (LLLDesc.base "" [])
        = (first :: a1).getD (k + 1) (LLLDesc.base "" []) :=
      consAppend_getD_le _ a1 first a2 (k + 1) (by omega)
    have e0 : (first :: (a1 ++ a2)).getD k (LLLDesc.base "" [])
        = (first :: a1).getD k (LLLDesc.base "" []) :=
      consAppend_getD_le _ a1 first a2 k (by omega)
    have es : (A ++ S).getD k default = A.getD k default :=
      List.getD_append A S default k hcase
    obtain ⟨nm, hnm⟩ := construct_lifted_arrays_chain first A p1 f1 k hcase
    refine ⟨nm, ?_⟩
    rw [e1, e0, es, ha1]
    exact hnm
  · have hAk : A.length ≤ k := Nat.le_of_not_lt hcase
    have e1 : (first :: (a1 ++ a2)).getD (k + 1) (LLLDesc.base "" [])
        = (List.getLastD a1 first :: a2).getD (k - A.length + 1) (LLLDesc.base "" []) := by
      have hidx : k + 1 = a1.length + (k - A.length + 1) := by omega
      conv_lhs => rw [hidx]
      exact consAppend_getD_offset _ a1 first a2 (k - A.length + 1)
    have e0 : (first :: (a1 ++ a2)).getD k (LLLDesc.base "" [])
        = (List.getLastD a1 first :: a2).getD (k - A.length) (LLLDesc.base "" []) := by
      have hidx : k = a1.length + (k - A.length) := by omega
      conv_lhs => rw [hidx]
      exact consAppend_getD_offset _ a1 first a2 (k - A.length)
    have es : (A ++ S).getD k default = S.getD (k - A.length) default :=
      List.getD_append_right A S default k hAk
    obtain ⟨nm, hnm⟩ := construct_lifted_arrays_chain (List.getLastD a1 first) S p2 f2
      (k - A.length) (by omega)
    refine ⟨nm, ?_⟩
    rw [e1, e0, es, ha2]
    exact hnm

theorem chain_getD_initSlots (first : LLLDesc) (A S : List LiftingStage)
    (p1 f1 p2 f2 : String) (a1 a2 : List LLLDesc)
    (ha1 : a1 = construct_lifted_arrays first A p1 f1)
    (ha2 : a2 = construct_lifted_arrays (List.getLastD a1 first) S p2 f2)
    (k : Nat) (hk : k < A.length + S.length) :
    ((first :: (a1 ++ a2)).getD (k + 1) (LLLDesc.base "" [])).initSlots
      = List.replicate first.lengthOf none := by
  subst ha1
  subst ha2
  have hlen1 := construct_lifted_arrays_length first A p1 f1
  have hlen2 := construct_lifted_arrays_length
    (List.getLastD (construct_lifted_arrays first A p1 f1) first) S p2 f2
  have hlast : (List.getLastD (construct_lifted_arrays first A p1 f1) first).lengthOf
      = first.lengthOf := by
    rcases List.mem_cons.mp
        (List.getLastD_mem_cons (construct_lifted_arrays first A p1 f1) first) with h | h
    · rw [h]
    · exact construct_lifted_arrays_lengthOf first A p1 f1 _ h
  rw [List.getD_cons_succ]
  have hkl : k < (construct_lifted_arrays first A p1 f1
      ++ construct_lifted_arrays
          (List.getLastD (construct_lifted_arrays first A p1 f1) first) S p2 f2).length := by
    rw [List.length_append, hlen1, hlen2]
    omega
  have hmem := getD_mem_of_lt _ (LLLDesc.base "" []) k hkl
  rcases List.mem_append.mp hmem with h | h
  · exact construct_lifted_arrays_initSlots first A p1 f1 _ h
  · rw [construct_lifted_arrays_initSlots _ S p2 f2 _ h, hlast]

theorem chain_memos (input : List Int) (first : LLLDesc) (A S : List LiftingStage)
    (p1 f1 p2 f2 : String) (a1 a2 : List LLLDesc)
    (hfirst : first = LLLDesc.base "Encoder Input" input)
    (ha1 : a1 = construct_lifted_arrays first A p1 f1)
    (ha2 : a2 = construct_lifted_arrays (List.getLastD a1 first) S p2 f2) :
    input.map some :: (A ++ S).map (fun _ => List.replicate input.length none)
      = (first :: (a1 ++ a2)).map LLLDesc.initSlots := by
  subst hfirst
  subst ha1
  subst ha2
  have hlast : (List.getLastD
        (construct_lifted_arrays (LLLDesc.base "Encoder Input" input) A p1 f1)
        (LLLDesc.base "Encoder Input" input)).lengthOf = input.length := by
    rcases List.mem_cons.mp
        (List.getLastD_mem_cons
          (construct_lifted_arrays (LLLDesc.base "Encoder Input" input) A p1 f1)
          (LLLDesc.base "Encoder Input" input)) with h | h
    · rw [h]
      rfl
    · exact construct_lifted_arrays_lengthOf _ A p1 f1 _ h
  have hslots1 : ∀ d ∈ construct_lifted_arrays (LLLDesc.base "Encoder Input" input) A p1 f1,
      LLLDesc.initSlots d = List.replicate input.length none := by
    intro d hd
    exact construct_lifted_arrays_initSlots _ A p1 f1 d hd
  have hslots2 : ∀ d ∈ construct_lifted_arrays
      (List.getLastD (construct_lifted_arrays (LLLDesc.base "Encoder Input" input) A p1 f1)
        (LLLDesc.base "Encoder Input" input)) S p2 f2,
      LLLDesc.initSlots d = List.replicate input.length none := by
    intro d hd
    rw [construct_lifted_arrays_initSlots _ S p2 f2 d hd, hlast]
  rw [List.map_cons, List.map_append, List.map_append]
  rw [List.map_const', List.map_const']
  rw [map_eq_replicate_of_mem _ _ _ hslots1, map_eq_replicate_of_mem _ _ _ hslots2]
  simp only [construct_lifted_arrays_length]
  rfl

/-- **C8.**  `construct_all_arrays` returns exactly
`1 + (number of analysis stages) + (number of synthesis stages)` arrays:
the first is the pre-populated `"Encoder Input"` array holding the input
values, and every subsequent array is a `LiftedLLL` whose source is the
immediately preceding array and whose stage descriptor is the
corresponding entry of the analysis-then-synthesis filter chain, in
order.  Construction triggers no value computation: in the corresponding
initial state every slot of every lifted array is still `Unknown`
(`none`), and the logger's call log and call stack are empty. -/
theorem C8_construct_all_arrays (input : List Int) (w : WaveletFilters) :
    (construct_all_arrays input w).length
        = 1 + (ANALYSIS_FILTERS w).length + (SYNTHESIS_FILTERS w).length
      ∧ (construct_all_arrays input w).getD 0 (LLLDesc.base "" [])
        = LLLDesc.base "Encoder Input" input
      ∧ (∀ k, k < (chainStages w).length →
          ∃ nm, (construct_all_arrays input w).getD (k + 1) (LLLDesc.base "" [])
            = LLLDesc.lifted nm
                ((construct_all_arrays input w).getD k (LLLDesc.base "" []))
                ((chainStages w).getD k default))
      ∧ (∀ k, k < (chainStages w).length →
          ((construct_all_arrays input w).getD (k + 1) (LLLDesc.base "" [])).initSlots
            = List.replicate input.length none)
      ∧ (initState input (chainStages w)).memos
          = (construct_all_arrays input w).map LLLDesc.initSlots
      ∧ (initState input (chainStages w)).callLog = []
      ∧ (initState input (chainStages w)).stack = [] := by
  refine ⟨?_, rfl, ?_, ?_, ?_, rfl, rfl⟩
  · simp only [construct_all_arrays, List.length_cons, List.length_append,
      construct_lifted_arrays_length]
    omega
  · intro k hk
    have hk' : k < (ANALYSIS_FILTERS w).length + (SYNTHESIS_FILTERS w).length := by
      simpa [chainStages] using hk
    exact chain_getD_lifted (LLLDesc.base "Encoder Input" input)
      (ANALYSIS_FILTERS w) (SYNTHESIS_FILTERS w)
      "Encode Intermediate " "Encode Out/Decode In"
      "Decode Intermediate " "Decoder Output" _ _ rfl rfl k hk'
  · intro k hk
    have hk' : k < (ANALYSIS_FILTERS w).length + (SYNTHESIS_FILTERS w).length := by
      simpa [chainStages] using hk
    exact chain_getD_initSlots (LLLDesc.base "Encoder Input" input)
      (ANALYSIS_FILTERS w) (SYNTHESIS_FILTERS w)
      "Encode Intermediate " "Encode Out/Decode In"
      "Decode Intermediate " "Decoder Output" _ _ rfl rfl k hk'
  · exact chain_memos input (LLLDesc.base "Encoder Input" input)
      (ANALYSIS_FILTERS w) (SYNTHESIS_FILTERS w)
      "Encode Intermediate " "Encode Out/Decode In"
      "Decode Intermediate " "Decoder Output" _ _ rfl rfl rfl

/-- Witness for C8 at `haar_no_shift` on a length-2 input: five arrays are
built, the array after the input is lifted from the input array by the
first chain stage, and the fresh logger state has an empty call log. -/
theorem C8_construct_all_arrays_witness :
    (construct_all_arrays [1, 2] WaveletFilters.haar_no_shift).length = 5
      ∧ (∃ nm, (construct_all_arrays [1, 2] WaveletFilters.haar_no_shift).getD 1
            (LLLDesc.base "" [])
          = LLLDesc.lifted nm
              ((construct_all_arrays [1, 2] WaveletFilters.haar_no_shift).getD 0
                (LLLDesc.base "" []))
              ((chainStages WaveletFilters.haar_no_shift).getD 0 default))
      ∧ (initState [1, 2] (chainStages WaveletFilters.haar_no_shift)).callLog = [] := by
  obtain ⟨h1, h2, h3, h4, h5, h6, h7⟩ :=
    C8_construct_all_arrays [1, 2] WaveletFilters.haar_no_shift
  exact ⟨h1.trans (by decide), h3 0 (by decide), h6⟩
